import Mathlib

/-!
Shallow embedding of the fpl-toolkit-gui prediction and retrieval core
(src/ai_models.py, src/intent_classifier.py, src/rag_engine.py) together
with theorems settling the frozen claims about it.

Python floats are modelled by real numbers; numeric input values are
rationals coerced into the reals.  Python dicts and Counters are modelled
by insertion-ordered association lists, mirroring dict semantics of
CPython 3.7+.  Python list.sort(key=..., reverse=True) is modelled by a
stable descending insertion sort.
-/

namespace FplToolkit

/-! ### Pythonic helpers: association lists (dicts / Counters) -/

/-- Lookup with default: models Python dict.get(k, d). -/
def alistGetD {β : Type} (m : List (String × β)) (k : String) (d : β) : β :=
  match m with
  | [] => d
  | (k', v) :: rest => if k' = k then v else alistGetD rest k d

/-- Key membership test: models Python `k in d`. -/
def alistHasKey {β : Type} (m : List (String × β)) (k : String) : Bool :=
  match m with
  | [] => false
  | (k', _) :: rest => if k' = k then true else alistHasKey rest k

/-- Models `d[k] += v` on a defaultdict with zero default: the first binding
of `k` is incremented in place, a missing key is appended (new keys take
dict insertion order, as in CPython). -/
def alistAdd {β : Type} [Add β] (m : List (String × β)) (k : String) (v : β) :
    List (String × β) :=
  match m with
  | [] => [(k, v)]
  | (k', v') :: rest =>
    if k' = k then (k', v' + v) :: rest else (k', v') :: alistAdd rest k v

/-- Models `d[k] = v` on a dict: overwrite the first binding of `k`,
append when missing. -/
def alistSet {β : Type} (m : List (String × β)) (k : String) (v : β) :
    List (String × β) :=
  match m with
  | [] => [(k, v)]
  | (k', v') :: rest =>
    if k' = k then (k', v) :: rest else (k', v') :: alistSet rest k v

/-- Models collections.Counter over a token list: counts with keys in
first-occurrence order. -/
def counter (tokens : List String) : List (String × ℕ) :=
  tokens.foldl (fun acc t => alistAdd acc t 1) []

/-- Keys of an association list, in order. -/
def alistKeys {β : Type} (m : List (String × β)) : List String :=
  m.map Prod.fst

/-- Remove the first binding of a key, used only in proofs. -/
def alistEraseKey {β : Type} (m : List (String × β)) (k : String) :
    List (String × β) :=
  match m with
  | [] => []
  | (k', v) :: rest =>
    if k' = k then rest else (k', v) :: alistEraseKey rest k

/-! ### Python truthiness and the `or` fallback on floats -/

/-- Models the Python idiom `x or 1.0` on a float: 0.0 is falsy. -/
noncomputable def pyOrOne (x : ℝ) : ℝ :=
  if x = 0 then 1 else x

/-- Truthiness of an optional integer: Python treats None and 0 as falsy. -/
def pyTruthyInt : Option ℤ → Bool
  | none => false
  | some n => decide (n ≠ 0)

/-! ### Stable descending sort, modelling list.sort(key=..., reverse=True)

CPython's sort is stable, and `reverse=True` keeps equal keys in original
order.  The model is a stable insertion sort: each element is placed after
every already-placed element whose key is greater than or equal to its own. -/

/-- Insert `x` into a descending-sorted list, after all elements whose key
is at least `key x` (so earlier equal-key elements stay in front). -/
noncomputable def insertDescBy {α : Type} (key : α → ℝ) (x : α) :
    List α → List α
  | [] => [x]
  | y :: ys => if key x ≤ key y then y :: insertDescBy key x ys else x :: y :: ys

/-- Stable descending sort by a real-valued key. -/
noncomputable def pySortDesc {α : Type} (key : α → ℝ) (l : List α) : List α :=
  l.foldl (fun acc x => insertDescBy key x acc) []

/-- Descending-sortedness by a key. -/
def SortedDescBy {α : Type} (key : α → ℝ) (l : List α) : Prop :=
  l.Pairwise (fun a b => key b ≤ key a)

theorem insertDescBy_perm {α : Type} (key : α → ℝ) (x : α) (l : List α) :
    List.Perm (insertDescBy key x l) (x :: l) := by
  induction l with
  | nil => simp [insertDescBy]
  | cons y ys ih =>
    by_cases h : key x ≤ key y
    · simpa [insertDescBy, h] using
        (List.Perm.trans (List.Perm.cons y ih) (List.Perm.swap x y ys))
    · simp [insertDescBy, h]

theorem pySortDesc_perm_aux {α : Type} (key : α → ℝ) (l acc : List α) :
    List.Perm (l.foldl (fun acc x => insertDescBy key x acc) acc) (acc ++ l) := by
  induction l generalizing acc with
  | nil => simp
  | cons x xs ih =>
    have h1 : (x :: xs).foldl (fun acc x => insertDescBy key x acc) acc
        = xs.foldl (fun acc x => insertDescBy key x acc) (insertDescBy key x acc) := rfl
    have h3 : List.Perm (insertDescBy key x acc ++ xs) (x :: (acc ++ xs)) :=
      (insertDescBy_perm key x acc).append_right xs
    rw [h1]
    exact (ih (insertDescBy key x acc)).trans (h3.trans List.perm_middle.symm)

theorem pySortDesc_perm {α : Type} (key : α → ℝ) (l : List α) :
    List.Perm (pySortDesc key l) l := by
  simpa [pySortDesc] using pySortDesc_perm_aux key l []

theorem insertDescBy_sorted {α : Type} (key : α → ℝ) (x : α) (l : List α)
    (hl : SortedDescBy key l) : SortedDescBy key (insertDescBy key x l) := by
  induction l with
  | nil => simp [insertDescBy, SortedDescBy]
  | cons y ys ih =>
    rcases List.pairwise_cons.mp hl with ⟨hy, hys⟩
    by_cases h : key x ≤ key y
    · have hins := ih hys
      rw [insertDescBy]
      simp only [h, if_true]
      refine List.pairwise_cons.mpr ⟨?_, hins⟩
      intro b hb
      have hb' := (insertDescBy_perm key x ys).mem_iff.mp hb
      rcases List.mem_cons.mp hb' with hbx | hbys
      · exact hbx ▸ h
      · exact hy b hbys
    · push_neg at h
      rw [insertDescBy]
      simp only [not_le.mpr h, if_false]
      refine List.pairwise_cons.mpr ⟨?_, hl⟩
      intro b hb
      rcases List.mem_cons.mp hb with hby | hbys
      · exact hby ▸ h.le
      · exact (hy b hbys).trans h.le

theorem pySortDesc_sorted_aux {α : Type} (key : α → ℝ) (l acc : List α)
    (hacc : SortedDescBy key acc) :
    SortedDescBy key (l.foldl (fun acc x => insertDescBy key x acc) acc) := by
  induction l generalizing acc with
  | nil => simpa using hacc
  | cons x xs ih => exact ih _ (insertDescBy_sorted key x acc hacc)

theorem pySortDesc_sorted {α : Type} (key : α → ℝ) (l : List α) :
    SortedDescBy key (pySortDesc key l) :=
  pySortDesc_sorted_aux key l [] (by simp [SortedDescBy])

theorem insertDescBy_filter_eq {α : Type} (key : α → ℝ) (c : ℝ) (x : α)
    (l : List α) (hl : SortedDescBy key l) :
    (insertDescBy key x l).filter (fun a => decide (key a = c)) =
      l.filter (fun a => decide (key a = c)) ++ (if key x = c then [x] else []) := by
  induction l with
  | nil => by_cases hx : key x = c <;> simp [insertDescBy, hx]
  | cons y ys ih =>
    rcases List.pairwise_cons.mp hl with ⟨hy, hys⟩
    by_cases h : key x ≤ key y
    · rw [insertDescBy]
      simp only [h, if_true]
      by_cases hyc : key y = c <;>
        simp [List.filter_cons, hyc, ih hys, List.append_assoc]
    · push_neg at h
      rw [insertDescBy]
      simp only [not_le.mpr h, if_false]
      by_cases hx : key x = c
      · have hnone : ∀ b ∈ y :: ys, ¬ (key b = c) := by
          intro b hb
          rcases List.mem_cons.mp hb with hby | hbys
          · subst hby; intro hc; exact absurd (hc.trans hx.symm) (ne_of_lt h)
          · intro hc
            have hle : key b ≤ key y := hy b hbys
            rw [hc] at hle
            have hxy : key x ≤ key y := by rw [hx]; exact hle
            exact absurd hxy (not_le.mpr h)
        have hempty : (y :: ys).filter (fun a => decide (key a = c)) = [] := by
          apply List.filter_eq_nil_iff.mpr
          intro b hb
          simpa using hnone b hb
        simp [List.filter_cons, hx, hempty,
          show ¬ (key y = c) from hnone y (List.mem_cons_self y ys)]
      · simp [List.filter_cons, hx]

theorem pySortDesc_filter_aux {α : Type} (key : α → ℝ) (c : ℝ) (l acc : List α)
    (hacc : SortedDescBy key acc) :
    (l.foldl (fun acc x => insertDescBy key x acc) acc).filter
        (fun a => decide (key a = c)) =
      acc.filter (fun a => decide (key a = c)) ++
        l.filter (fun a => decide (key a = c)) := by
  induction l generalizing acc with
  | nil => simp
  | cons x xs ih =>
    have h1 : (x :: xs).foldl (fun acc x => insertDescBy key x acc) acc
        = xs.foldl (fun acc x => insertDescBy key x acc) (insertDescBy key x acc) := rfl
    rw [h1, ih _ (insertDescBy_sorted key x acc hacc),
      insertDescBy_filter_eq key c x acc hacc]
    by_cases hx : key x = c <;> simp [List.filter_cons, hx, List.append_assoc]

/-- Stability of the modelled Python sort: elements sharing one key value
appear in the output exactly in their input order. -/
theorem pySortDesc_filter {α : Type} (key : α → ℝ) (c : ℝ) (l : List α) :
    (pySortDesc key l).filter (fun a => decide (key a = c)) =
      l.filter (fun a => decide (key a = c)) := by
  simpa [pySortDesc] using
    pySortDesc_filter_aux key c l [] (by simp [SortedDescBy])

/-! ### src/ai_models.py -/

namespace AiModels

/-- Value of one statistics field of a match record, as it arrives from the
data supply: a number (ints and numeric floats alike), None, or the empty
string.  The module coerces the latter two to 0. -/
inductive FVal where
  | num (q : ℚ)
  | null
  | emptyStr
deriving DecidableEq

instance : Inhabited FVal := ⟨FVal.num 0⟩

/-- Coercion applied by _summarise_window: `if raw in (None, ''): raw = 0`
followed by float(raw).  The same value also results from the
`float(x or 0)` idiom used for targets, since 0, None and '' are falsy. -/
noncomputable def FVal.toFloat : FVal → ℝ
  | num q => (q : ℝ)
  | null => 0
  | emptyStr => 0

/-- One element-summary history entry, restricted to the ten tracked
feature fields (FEATURE_FIELDS); a missing key behaves as the number 0
via dict.get(field, 0), which FVal.num 0 represents. -/
structure MatchStat where
  minutes : FVal
  total_points : FVal
  goals_scored : FVal
  assists : FVal
  clean_sheets : FVal
  bonus : FVal
  influence : FVal
  creativity : FVal
  threat : FVal
  ict_index : FVal
deriving DecidableEq

instance : Inhabited MatchStat :=
  ⟨⟨.num 0, .num 0, .num 0, .num 0, .num 0, .num 0, .num 0, .num 0, .num 0, .num 0⟩⟩

/-- FEATURE_FIELDS, in source order. -/
def featureFields : List (MatchStat → FVal) :=
  [(·.minutes), (·.total_points), (·.goals_scored), (·.assists),
    (·.clean_sheets), (·.bonus), (·.influence), (·.creativity),
    (·.threat), (·.ict_index)]

/-- Mean of one field over the window (`sum(values) / len(values)`,
0 for an empty window). -/
noncomputable def fieldMean (ms : List MatchStat) (f : MatchStat → FVal) : ℝ :=
  if ms.isEmpty then 0
  else ((ms.map fun m => (f m).toFloat).sum) / ms.length

/-- Division of the minutes average (the first aggregated entry) by 90,
as done by `aggregated[0] = aggregated[0] / 90.0`. -/
noncomputable def scaleMinutes : List ℝ → List ℝ
  | [] => []
  | a :: rest => (a / 90) :: rest

/-- _summarise_window: the ten field means (minutes rescaled by 90) and the
average of total_points over the window. -/
noncomputable def summariseWindow (ms : List MatchStat) : List ℝ × ℝ :=
  let aggregated := featureFields.map (fun f => fieldMean ms f)
  let totalPoints := (ms.map fun m => m.total_points.toFloat).sum
  let avgPoints := if ms.isEmpty then 0 else totalPoints / ms.length
  (scaleMinutes aggregated, avgPoints)

/-- One {player, history} entry of the player_histories iterable. -/
structure HistoryEntry (α : Type) where
  player : α
  history : List MatchStat
deriving DecidableEq

/-- Sliding-window samples of one entry, as built by the inner loop of
_build_training_samples: nothing when `len(history) <= history_window`,
otherwise one (features, target) pair per index idx in
range(history_window, len(history)), with window `history[idx-w:idx]` and
target `float(history[idx].total_points or 0)`. -/
noncomputable def entrySamples (history : List MatchStat) (w : ℕ) : List (List ℝ × ℝ) :=
  if history.length ≤ w then []
  else (List.range' w (history.length - w)).map fun idx =>
    ((summariseWindow ((history.drop (idx - w)).take w)).1,
      (history.getD idx default).total_points.toFloat)

/-- _build_training_samples: feature rows and targets over all entries,
in entry order. -/
noncomputable def buildTrainingSamples {α : Type} (entries : List (HistoryEntry α)) (w : ℕ) :
    List (List ℝ) × List ℝ :=
  let ps := (entries.map fun e => entrySamples e.history w).flatten
  (ps.map Prod.fst, ps.map Prod.snd)

/-- The RegressionModel dataclass (to_dict is a field-for-field dump, so the
structure also stands for the serialized model dict). -/
structure RegressionModel where
  weights : List ℝ
  bias : ℝ
  feature_means : List ℝ
  feature_stds : List ℝ
  name : String
  samples : ℕ

/-- _normalise: per-coordinate (value - mean) / std with a std of exactly 0
forcing the coordinate to 0; zip semantics stop at the shortest list. -/
noncomputable def pyNormalise : List ℝ → List ℝ → List ℝ → List ℝ
  | v :: vs, m :: ms, s :: ss =>
    (if s = 0 then 0 else (v - m) / s) :: pyNormalise vs ms ss
  | _, _, _ => []

/-- RegressionModel.predict: bias plus the dot product of the weights with
the normalised feature vector. -/
noncomputable def RegressionModel.predict (model : RegressionModel)
    (features : List ℝ) : ℝ :=
  let vector := pyNormalise features model.feature_means model.feature_stds
  model.bias + ((model.weights.zip vector).map fun p => p.1 * p.2).sum

/-- Fixed hyperparameters of _gradient_descent_fit (the function is only
ever called with its defaults). -/
noncomputable def learningRate : ℝ := 0.05

/-- Number of gradient-descent epochs. -/
def epochsCount : ℕ := 400

/-- L2 regularisation coefficient. -/
noncomputable def l2Coeff : ℝ := 0.01

/-- Mean of feature column j over the sample rows. -/
noncomputable def columnMean (features : List (List ℝ)) (j : ℕ) : ℝ :=
  ((features.map fun r => r.getD j 0).sum) / features.length

/-- Sample variance of feature column j, n-1 denominator floored at 1. -/
noncomputable def columnVariance (features : List (List ℝ)) (j : ℕ) : ℝ :=
  ((features.map fun r => (r.getD j 0 - columnMean features j) ^ 2).sum) /
    (max (features.length - 1) 1 : ℕ)

/-- Column standard deviation: variance ** 0.5 when positive, else 1.0. -/
noncomputable def columnStdDev (features : List (List ℝ)) (j : ℕ) : ℝ :=
  if 0 < columnVariance features j then Real.sqrt (columnVariance features j) else 1

/-- Model output on one normalised row under the current weights and bias. -/
noncomputable def dotPred (weights row : List ℝ) (bias : ℝ) : ℝ :=
  bias + ((weights.zip row).map fun p => p.1 * p.2).sum

/-- Per-row gradient accumulation:
`grad_w[j] += error * value + l2 * weights[j]` for each j of the row. -/
noncomputable def addRowGrad : List ℝ → List ℝ → List ℝ → ℝ → List ℝ
  | g :: gs, wt :: ws, v :: vs, err =>
    (g + (err * v + l2Coeff * wt)) :: addRowGrad gs ws vs err
  | gs, _, _, _ => gs

/-- One epoch of full-batch gradient descent over the normalised rows. -/
noncomputable def epochStep (nFeat nSamples : ℕ) (rows : List (List ℝ)) (targets : List ℝ)
    (st : List ℝ × ℝ) : List ℝ × ℝ :=
  let grads := (rows.zip targets).foldl
    (fun (acc : List ℝ × ℝ) rt =>
      let err := dotPred st.1 rt.1 st.2 - rt.2
      (addRowGrad acc.1 st.1 rt.1 err, acc.2 + err))
    (List.replicate nFeat 0, 0)
  (st.1.zipWith (fun w g => w - learningRate * g / nSamples) grads.1,
    st.2 - learningRate * grads.2 / nSamples)

/-- _gradient_descent_fit: normalisation parameters from the raw feature
columns, then 400 epochs of full-batch descent from zero weights and bias. -/
noncomputable def gdFit (features : List (List ℝ)) (targets : List ℝ) :
    RegressionModel :=
  let nSamples := features.length
  let nFeat := (features.headD []).length
  let means := (List.range nFeat).map (columnMean features)
  let stds := (List.range nFeat).map (columnStdDev features)
  let normalised := features.map fun row => pyNormalise row means stds
  let final := (epochStep nFeat nSamples normalised targets)^[epochsCount]
    (List.replicate nFeat 0, 0)
  { weights := final.1, bias := final.2, feature_means := means,
    feature_stds := stds, name := "LinearRegressor", samples := nSamples }

/-- train_points_model: error when the sample set is empty, otherwise the
fitted model tagged with the trained sample count. -/
noncomputable def trainPointsModel {α : Type} (entries : List (HistoryEntry α))
    (w : ℕ) : Except String RegressionModel :=
  let st := buildTrainingSamples entries w
  if st.1.isEmpty then Except.error "No training samples available for AI model"
  else Except.ok { gdFit st.1 st.2 with samples := st.1.length }

/-- One emitted prediction record {player, predicted, avg_points}. -/
structure PredictionRow (α : Type) where
  player : α
  predicted : ℝ
  avg_points : ℝ

/-- The trailing slice history[-w:]; for w = 0 Python's history[-0:] is the
whole list. -/
def lastWindow (history : List MatchStat) (w : ℕ) : List MatchStat :=
  if w = 0 then history else history.drop (history.length - w)

/-- predict_upcoming_points: one record per entry with enough history,
prediction clamped at 0 via max, then a stable descending sort by the
predicted value. -/
noncomputable def predictUpcomingPoints {α : Type} (model : RegressionModel)
    (entries : List (HistoryEntry α)) (w : ℕ) : List (PredictionRow α) :=
  let preds := entries.filterMap fun e =>
    if e.history.length < w then none
    else
      let fw := summariseWindow (lastWindow e.history w)
      some { player := e.player, predicted := max (model.predict fw.1) 0,
             avg_points := fw.2 }
  pySortDesc (fun r => r.predicted) preds

/-! ### Helper lemmas about the trainer and ranker -/

theorem entrySamples_length (h : List MatchStat) (w : ℕ) :
    (entrySamples h w).length = h.length - w := by
  unfold entrySamples
  by_cases hle : h.length ≤ w
  · simp [hle, Nat.sub_eq_zero_of_le hle]
  · simp [hle]

theorem entrySamples_target (h : List MatchStat) (w i : ℕ) (hw : w ≤ i)
    (hi : i < h.length) :
    ((entrySamples h w).getD (i - w) default).2
      = (h.getD i default).total_points.toFloat := by
  have hlt : w < h.length := lt_of_le_of_lt hw hi
  have hrepr : entrySamples h w
      = (List.range' w (h.length - w)).map fun idx =>
          ((summariseWindow ((h.drop (idx - w)).take w)).1,
            (h.getD idx default).total_points.toFloat) := by
    unfold entrySamples
    rw [if_neg (not_le.mpr hlt)]
  have hb : i - w < ((List.range' w (h.length - w)).map fun idx =>
      ((summariseWindow ((h.drop (idx - w)).take w)).1,
        (h.getD idx default).total_points.toFloat)).length := by
    simp only [List.length_map, List.length_range']
    omega
  rw [hrepr, List.getD_eq_getElem?_getD, List.getElem?_eq_getElem hb]
  simp only [List.getElem_map, List.getElem_range', Option.getD_some]
  have hidx : w + 1 * (i - w) = i := by omega
  rw [hidx]

theorem range_map_getD (f : ℕ → ℝ) (n j : ℕ) :
    ((List.range n).map f).getD j 0 = if j < n then f j else 0 := by
  by_cases h : j < n
  · have hb : j < ((List.range n).map f).length := by simpa using h
    rw [List.getD_eq_getElem?_getD, List.getElem?_eq_getElem hb]
    simp [h]
  · have hb : ((List.range n).map f).length ≤ j := by simpa using not_lt.mp h
    rw [List.getD_eq_getElem?_getD, List.getElem?_eq_none hb]
    simp [h]

theorem pyNormalise_getD : ∀ (vs ms ss : List ℝ) (j : ℕ),
    (pyNormalise vs ms ss).getD j 0
      = if j < vs.length ∧ j < ms.length ∧ j < ss.length
        then (if ss.getD j 0 = 0 then 0
              else (vs.getD j 0 - ms.getD j 0) / ss.getD j 0)
        else 0
  | v :: vs, m :: ms, s :: ss, 0 => by
    simp [pyNormalise]
  | v :: vs, m :: ms, s :: ss, j + 1 => by
    simp only [pyNormalise, List.getD_cons_succ, pyNormalise_getD vs ms ss j,
      List.length_cons, Nat.add_lt_add_iff_right]
  | [], ms, ss, j => by simp [pyNormalise]
  | v :: vs, [], ss, j => by simp [pyNormalise]
  | v :: vs, m :: ms, [], j => by simp [pyNormalise]

theorem columnMean_const (features : List (List ℝ)) (j : ℕ) (c : ℝ)
    (hne : features ≠ []) (hconst : ∀ row ∈ features, row.getD j 0 = c) :
    columnMean features j = c := by
  have hn : (features.length : ℝ) ≠ 0 := by
    simpa [List.length_eq_zero] using hne
  unfold columnMean
  rw [List.map_congr_left hconst, List.map_const', List.sum_replicate, nsmul_eq_mul]
  field_simp

/-! ### Synthetic deterministic data used by the witnesses -/

/-- One synthetic match record with simple deterministic field values. -/
def sampleMatch (k : ℕ) : MatchStat :=
  ⟨.num 90, .num k, .num 1, .num 0, .num 0, .num 1, .num k, .num k, .num k, .num k⟩

/-- Eight synthetic matches. -/
def history8 : List MatchStat := (List.range 8).map sampleMatch

/-- Five synthetic matches (length exactly the default window). -/
def history5 : List MatchStat := (List.range 5).map sampleMatch

/-- Twenty synthetic players with eight matches each. -/
def synthetic20 : List (HistoryEntry ℕ) :=
  (List.range 20).map fun i => ⟨i, history8⟩

/-- One synthetic entry. -/
def entryA : HistoryEntry ℕ := ⟨0, history8⟩

/-- The model trainPointsModel returns on [entryA] with window 5. -/
noncomputable def modelA : RegressionModel :=
  { gdFit (buildTrainingSamples [entryA] 5).1 (buildTrainingSamples [entryA] 5).2
      with samples := (buildTrainingSamples [entryA] 5).1.length }

/-- A model with no weights, used where the claim holds for every model. -/
noncomputable def modelZero : RegressionModel :=
  ⟨[], 0, [], [], "LinearRegressor", 0⟩

/-! ### Claim theorems about src/ai_models.py -/

/-- C3: an entry with history length at most the window yields no training
samples; an entry with history length L greater than the window yields
exactly L - w samples; the sample whose window ends at index i has target
equal to the total_points value of history[i]; and the total number of
feature rows is the sum over entries of the truncated differences
length - w (so 20 entries of 8 matches each with w = 5 yield 60 >= 60
samples, as the witness instantiates). -/
theorem c3_training_sample_counts {α : Type} (entries : List (HistoryEntry α))
    (w : ℕ) :
    (∀ e ∈ entries, e.history.length ≤ w → entrySamples e.history w = [])
    ∧ (∀ e ∈ entries, w < e.history.length →
        (entrySamples e.history w).length = e.history.length - w)
    ∧ (∀ e ∈ entries, ∀ i, w ≤ i → i < e.history.length → ∀ q : ℚ,
        (e.history.getD i default).total_points = FVal.num q →
        ((entrySamples e.history w).getD (i - w) default).2 = (q : ℝ))
    ∧ (buildTrainingSamples entries w).1.length
        = (entries.map fun e => e.history.length - w).sum := by
  refine ⟨?_, ?_, ?_, ?_⟩
  · intro e _ hle
    unfold entrySamples
    simp [hle]
  · intro e _ _
    exact entrySamples_length e.history w
  · intro e _ i hw hi q hq
    rw [entrySamples_target e.history w i hw hi, hq]
    rfl
  · simp [buildTrainingSamples, entrySamples_length, Function.comp_def]

/-- C3 witness: the synthetic 20-player, 8-match corpus at window 5. -/
theorem c3_training_sample_counts_witness :
    (5 < history8.length ∧ (entrySamples history8 5).length = 8 - 5)
    ∧ ((history8.getD 5 default).total_points = FVal.num 5
        ∧ ((entrySamples history8 5).getD 0 default).2 = ((5 : ℚ) : ℝ))
    ∧ (buildTrainingSamples synthetic20 5).1.length = 60 := by
  have hc := c3_training_sample_counts synthetic20 5
  have hmem : (⟨0, history8⟩ : HistoryEntry ℕ) ∈ synthetic20 := by decide
  refine ⟨⟨by decide, ?_⟩, ⟨by decide, ?_⟩, ?_⟩
  · have := hc.2.1 ⟨0, history8⟩ hmem (by decide)
    simpa using this
  · have := hc.2.2.1 ⟨0, history8⟩ hmem 5 (by decide) (by decide) 5 (by decide)
    simpa using this
  · rw [hc.2.2.2]
    decide

/-- C4: training is deterministic — two runs of train_points_model on equal
histories and equal window sizes return models with identical weights,
bias, normalisation parameters and sample counts (the embedding of the
full-batch descent is a pure function of its inputs). -/
theorem c4_training_deterministic {α : Type} (h1 h2 : List (HistoryEntry α))
    (w1 w2 : ℕ) (m1 m2 : RegressionModel)
    (e1 : trainPointsModel h1 w1 = Except.ok m1)
    (e2 : trainPointsModel h2 w2 = Except.ok m2)
    (hh : h1 = h2) (hw : w1 = w2) :
    m1.weights = m2.weights ∧ m1.bias = m2.bias
    ∧ m1.feature_means = m2.feature_means
    ∧ m1.feature_stds = m2.feature_stds ∧ m1.samples = m2.samples := by
  subst hh
  subst hw
  rw [e1] at e2
  have hm : m1 = m2 := by injection e2
  subst hm
  exact ⟨rfl, rfl, rfl, rfl, rfl⟩

/-- C4 witness: a concrete successful training run compared with itself. -/
theorem c4_training_deterministic_witness :
    trainPointsModel [entryA] 5 = Except.ok modelA
    ∧ modelA.weights = modelA.weights ∧ modelA.samples = modelA.samples := by
  have e : trainPointsModel [entryA] 5 = Except.ok modelA := rfl
  have h := c4_training_deterministic [entryA] [entryA] 5 5 modelA modelA e e rfl rfl
  exact ⟨e, h.1, h.2.2.2.2⟩

/-- C6: train_points_model returns the "no samples" training error exactly
when the histories yield an empty sample set, and otherwise returns a
fitted model tagged with the trained sample count. -/
theorem c6_train_error_iff {α : Type} (entries : List (HistoryEntry α)) (w : ℕ) :
    (trainPointsModel entries w
        = Except.error "No training samples available for AI model"
      ↔ (buildTrainingSamples entries w).1 = [])
    ∧ ((buildTrainingSamples entries w).1 ≠ [] →
        ∃ m, trainPointsModel entries w = Except.ok m
          ∧ m.samples = (buildTrainingSamples entries w).1.length) := by
  cases hemp : (buildTrainingSamples entries w).1.isEmpty with
  | true =>
    have he : (buildTrainingSamples entries w).1 = [] := by
      simpa [List.isEmpty_iff] using hemp
    constructor
    · simp [trainPointsModel, hemp, he]
    · intro hne
      exact absurd he hne
  | false =>
    have hne : (buildTrainingSamples entries w).1 ≠ [] := by
      simpa [List.isEmpty_iff] using hemp
    constructor
    · simp [trainPointsModel, hemp, hne]
    · intro _
      refine ⟨{ gdFit (buildTrainingSamples entries w).1
          (buildTrainingSamples entries w).2
          with samples := (buildTrainingSamples entries w).1.length }, ?_, rfl⟩
      simp [trainPointsModel, hemp]

/-- C6 witness: empty histories err, the synthetic entry trains. -/
theorem c6_train_error_iff_witness :
    trainPointsModel ([] : List (HistoryEntry ℕ)) 5
        = Except.error "No training samples available for AI model"
    ∧ ∃ m, trainPointsModel [entryA] 5 = Except.ok m
        ∧ m.samples = (buildTrainingSamples [entryA] 5).1.length := by
  constructor
  · exact (c6_train_error_iff ([] : List (HistoryEntry ℕ)) 5).1.mpr rfl
  · refine (c6_train_error_iff [entryA] 5).2 ?_
    have hlen : (buildTrainingSamples [entryA] 5).1.length = 3 := rfl
    intro h
    rw [h] at hlen
    exact absurd hlen (by decide)

/-- Records predict_upcoming_points would emit before sorting: one per
entry whose history length is at least the window size. -/
noncomputable def predBase {α : Type} (model : RegressionModel)
    (entries : List (HistoryEntry α)) (w : ℕ) : List (PredictionRow α) :=
  entries.filterMap fun e =>
    if e.history.length < w then none
    else
      some { player := e.player,
             predicted := max (model.predict
               (summariseWindow (lastWindow e.history w)).1) 0,
             avg_points := (summariseWindow (lastWindow e.history w)).2 }

/-- C7: predict_upcoming_points emits one record per entry whose history
length is at least the window (a permutation of the unsorted record list),
every predicted value is clamped at 0, and the output is sorted descending
by predicted value with ties keeping input order (stable sort). -/
theorem c7_prediction_ranked {α : Type} (model : RegressionModel)
    (entries : List (HistoryEntry α)) (w : ℕ) :
    List.Perm (predictUpcomingPoints model entries w) (predBase model entries w)
    ∧ (∀ r ∈ predictUpcomingPoints model entries w, 0 ≤ r.predicted)
    ∧ SortedDescBy (fun r => r.predicted) (predictUpcomingPoints model entries w)
    ∧ (∀ c : ℝ,
        (predictUpcomingPoints model entries w).filter
            (fun r => decide (r.predicted = c))
          = (predBase model entries w).filter
              (fun r => decide (r.predicted = c))) := by
  have hdef : predictUpcomingPoints model entries w
      = pySortDesc (fun r => r.predicted) (predBase model entries w) := rfl
  refine ⟨?_, ?_, ?_, ?_⟩
  · rw [hdef]
    exact pySortDesc_perm _ _
  · intro r hr
    rw [hdef] at hr
    have hr' : r ∈ predBase model entries w :=
      (pySortDesc_perm _ _).mem_iff.mp hr
    rcases List.mem_filterMap.mp hr' with ⟨e, _, hfe⟩
    by_cases hlen : e.history.length < w
    · rw [if_pos hlen] at hfe
      cases hfe
    · rw [if_neg hlen] at hfe
      have hrec := Option.some.inj hfe
      rw [← hrec]
      exact le_max_right _ _
  · rw [hdef]
    exact pySortDesc_sorted _ _
  · intro c
    rw [hdef]
    exact pySortDesc_filter _ _ _

/-- C7 witness: the head of a concrete one-entry prediction run is
clamped at 0. -/
theorem c7_prediction_ranked_witness :
    0 ≤ ((predictUpcomingPoints modelZero [⟨0, history8⟩] 5).headD
      ⟨0, 0, 0⟩).predicted := by
  have hlen :
      (predictUpcomingPoints modelZero [(⟨0, history8⟩ : HistoryEntry ℕ)] 5).length
        = 1 := rfl
  have hne :
      predictUpcomingPoints modelZero [(⟨0, history8⟩ : HistoryEntry ℕ)] 5 ≠ [] := by
    intro h
    rw [h] at hlen
    exact absurd hlen (by decide)
  have hhd : (predictUpcomingPoints modelZero
        [(⟨0, history8⟩ : HistoryEntry ℕ)] 5).headD ⟨0, 0, 0⟩
      = (predictUpcomingPoints modelZero
        [(⟨0, history8⟩ : HistoryEntry ℕ)] 5).head hne := by
    rw [List.headD_eq_head?_getD, List.head?_eq_head hne]
    rfl
  rw [hhd]
  exact (c7_prediction_ranked modelZero [⟨0, history8⟩] 5).2.1 _ (List.head_mem hne)

/-- C8: a history of length exactly the window size yields no training
samples yet still produces exactly one prediction record. -/
theorem c8_window_boundary {α : Type} (model : RegressionModel)
    (e : HistoryEntry α) (w : ℕ) (h : e.history.length = w) :
    entrySamples e.history w = []
    ∧ (predictUpcomingPoints model [e] w).length = 1 := by
  constructor
  · unfold entrySamples
    simp [h]
  · have hdef : predictUpcomingPoints model [e] w
        = pySortDesc (fun r => r.predicted) (predBase model [e] w) := rfl
    rw [hdef, (pySortDesc_perm _ _).length_eq]
    unfold predBase
    simp [h]

/-- C8 witness: a five-match history at window 5. -/
theorem c8_window_boundary_witness :
    entrySamples history5 5 = []
    ∧ (predictUpcomingPoints modelZero
        [(⟨0, history5⟩ : HistoryEntry ℕ)] 5).length = 1 :=
  c8_window_boundary modelZero ⟨0, history5⟩ 5 (by decide)

/-- C9: a feature column constant across all training samples never divides
by zero — every fitted std is nonzero — its normalised value is 0 on every
training row, and the normaliser's guard forces a coordinate with std
exactly 0 to 0. -/
theorem c9_zero_variance_safety (features : List (List ℝ)) (targets : List ℝ)
    (j : ℕ) (c : ℝ) (hne : features ≠ [])
    (hconst : ∀ row ∈ features, row.getD j 0 = c) :
    (∀ s ∈ (gdFit features targets).feature_stds, s ≠ 0)
    ∧ (∀ row ∈ features,
        (pyNormalise row (gdFit features targets).feature_means
          (gdFit features targets).feature_stds).getD j 0 = 0)
    ∧ (∀ (v m : ℝ) (vs ms ss : List ℝ),
        (pyNormalise (v :: vs) (m :: ms) ((0 : ℝ) :: ss)).getD 0 0 = 0) := by
  have hmeans : (gdFit features targets).feature_means
      = (List.range (features.headD []).length).map (columnMean features) := rfl
  have hstds : (gdFit features targets).feature_stds
      = (List.range (features.headD []).length).map (columnStdDev features) := rfl
  refine ⟨?_, ?_, ?_⟩
  · intro s hs
    rw [hstds] at hs
    rcases List.mem_map.mp hs with ⟨j', _, hj'⟩
    rw [← hj']
    unfold columnStdDev
    by_cases hv : 0 < columnVariance features j'
    · rw [if_pos hv]
      exact ne_of_gt (Real.sqrt_pos.mpr hv)
    · rw [if_neg hv]
      exact one_ne_zero
  · intro row hrow
    rw [pyNormalise_getD]
    by_cases hj : j < row.length
        ∧ j < (gdFit features targets).feature_means.length
        ∧ j < (gdFit features targets).feature_stds.length
    · rw [if_pos hj]
      have hjn : j < (features.headD []).length := by
        have := hj.2.1
        rw [hmeans] at this
        simpa using this
      have hm : (gdFit features targets).feature_means.getD j 0
          = columnMean features j := by
        rw [hmeans, range_map_getD, if_pos hjn]
      rw [hm, columnMean_const features j c hne hconst, hconst row hrow, sub_self]
      by_cases hs : (gdFit features targets).feature_stds.getD j 0 = 0
      · rw [if_pos hs]
      · rw [if_neg hs, zero_div]
    · rw [if_neg hj]
  · intro v m vs ms ss
    simp [pyNormalise]

/-- C9 witness: a two-sample training set whose first column is constant. -/
theorem c9_zero_variance_safety_witness :
    ([([1, 2] : List ℝ), [1, 3]] ≠ ([] : List (List ℝ)))
    ∧ (pyNormalise [1, 2]
        (gdFit [[1, 2], [1, 3]] [0, 0]).feature_means
        (gdFit [[1, 2], [1, 3]] [0, 0]).feature_stds).getD 0 0 = 0 := by
  have hconst : ∀ row ∈ [([1, 2] : List ℝ), [1, 3]], row.getD 0 0 = 1 := by
    intro row hr
    simp only [List.mem_cons, List.not_mem_nil, or_false] at hr
    rcases hr with h | h <;> subst h <;> norm_num [List.getD]
  refine ⟨by simp, ?_⟩
  exact (c9_zero_variance_safety [[1, 2], [1, 3]] [0, 0] 0 1 (by simp) hconst).2.1
    [1, 2] (by simp)

end AiModels

/-! ### The shared tokenizer

Both src/intent_classifier.py and src/rag_engine.py define the same
_TOKEN_PATTERN = [a-zA-Z0-9']+ and _tokenize (findall, then lower-case
each token).  The scanner below extracts maximal runs of word characters
structurally, so that it evaluates inside the kernel. -/

/-- Character class of the token pattern: ASCII letters, ASCII digits, or
the apostrophe (codepoint 39). -/
def isWordChar (c : Char) : Bool :=
  c.isAlpha || c.isDigit || c.toNat == 39

/-- Scanner for maximal runs of word characters; `acc` holds the current
run reversed. -/
def splitRunsAux : List Char → List Char → List (List Char)
  | [], acc => if acc.isEmpty then [] else [acc.reverse]
  | c :: rest, acc =>
    if isWordChar c then splitRunsAux rest (c :: acc)
    else if acc.isEmpty then splitRunsAux rest []
    else acc.reverse :: splitRunsAux rest []

/-- _tokenize: maximal [a-zA-Z0-9']+ runs, each lower-cased. -/
def tokenize (s : String) : List String :=
  (splitRunsAux s.data []).map fun r => String.mk (r.map Char.toLower)

/-! ### Association-list lemmas -/

theorem alistGetD_alistSet {β : Type} (m : List (String × β)) (k k' : String)
    (v : β) (d : β) :
    alistGetD (alistSet m k v) k' d = if k' = k then v else alistGetD m k' d := by
  induction m with
  | nil =>
    by_cases h : k' = k
    · simp [alistSet, alistGetD, h]
    · have h' : ¬ (k = k') := fun hh => h hh.symm
      simp [alistSet, alistGetD, h, h']
  | cons p rest ih =>
    by_cases h0 : p.1 = k
    · rw [show alistSet (p :: rest) k v = (p.1, v) :: rest by
        simp [alistSet, h0]]
      by_cases h1 : k' = k
      · have hp : p.1 = k' := h0.trans h1.symm
        simp [alistGetD, hp, h1]
      · have hp : ¬ (p.1 = k') := fun hh => h1 (hh.symm.trans h0)
        simp [alistGetD, hp, h1]
    · rw [show alistSet (p :: rest) k v = (p.1, p.2) :: alistSet rest k v by
        simp [alistSet, h0]]
      by_cases h1 : p.1 = k'
      · have h2 : ¬ (k' = k) := fun hh => h0 (h1.trans hh)
        simp [alistGetD, h1, h2]
      · simp [alistGetD, h1, ih]

theorem alistGetD_alistAdd {β : Type} [AddMonoid β] (m : List (String × β))
    (k k' : String) (v : β) :
    alistGetD (alistAdd m k v) k' 0
      = alistGetD m k' 0 + (if k' = k then v else 0) := by
  induction m with
  | nil =>
    by_cases h : k' = k
    · simp [alistAdd, alistGetD, h]
    · simp [alistAdd, alistGetD, h]
      intro hh
      exact absurd hh.symm h
  | cons p rest ih =>
    by_cases h0 : p.1 = k
    · rw [show alistAdd (p :: rest) k v = (p.1, p.2 + v) :: rest by
        simp [alistAdd, h0]]
      by_cases h1 : k' = k
      · have hp : p.1 = k' := h0.trans h1.symm
        simp [alistGetD, hp, h1]
      · have hp : ¬ (p.1 = k') := fun hh => h1 (hh.symm.trans h0)
        simp [alistGetD, hp, h1]
    · rw [show alistAdd (p :: rest) k v = (p.1, p.2) :: alistAdd rest k v by
        simp [alistAdd, h0]]
      by_cases h1 : p.1 = k'
      · have : ¬ (k' = k) := fun hh => h0 (h1.trans hh)
        simp [alistGetD, h1, this]
      · simp [alistGetD, h1, ih, add_assoc]

theorem alistGetD_prop {β : Type} (P : β → Prop) (m : List (String × β))
    (k : String) (d : β) (hm : ∀ p ∈ m, P p.2) (hd : P d) :
    P (alistGetD m k d) := by
  induction m with
  | nil => simpa [alistGetD] using hd
  | cons p rest ih =>
    by_cases h : p.1 = k
    · simpa [alistGetD, h] using hm p (by simp)
    · rw [show alistGetD (p :: rest) k d = alistGetD rest k d by
        simp [alistGetD, h]]
      exact ih fun q hq => hm q (by simp [hq])

theorem alist_mem_getD {β : Type} (m : List (String × β)) (p : String × β)
    (d : β) (hnd : (alistKeys m).Nodup) (hp : p ∈ m) :
    alistGetD m p.1 d = p.2 := by
  induction m with
  | nil => cases hp
  | cons q rest ih =>
    rcases List.mem_cons.mp hp with h | h
    · subst h
      simp [alistGetD]
    · have hq : ¬ (q.1 = p.1) := by
        intro hh
        have hkeys : p.1 ∈ alistKeys rest := List.mem_map_of_mem Prod.fst h
        rw [alistKeys, List.map_cons] at hnd
        exact absurd (hh ▸ hkeys) (List.nodup_cons.mp hnd).1
      rw [show alistGetD (q :: rest) p.1 d = alistGetD rest p.1 d by
        simp [alistGetD, hq]]
      exact ih (by
        rw [alistKeys, List.map_cons] at hnd
        exact (List.nodup_cons.mp hnd).2) h

theorem alistGetD_of_not_mem_keys {β : Type} (m : List (String × β))
    (k : String) (d : β) (h : k ∉ alistKeys m) : alistGetD m k d = d := by
  induction m with
  | nil => rfl
  | cons p rest ih =>
    have h1 : ¬ (p.1 = k) := by
      intro hh
      exact h (by simp [alistKeys, hh])
    rw [show alistGetD (p :: rest) k d = alistGetD rest k d by
      simp [alistGetD, h1]]
    exact ih fun hh => h (by simp [alistKeys] at hh ⊢; exact Or.inr hh)

theorem mem_keys_alistAdd {β : Type} [Add β] (m : List (String × β))
    (k k' : String) (v : β) :
    k' ∈ alistKeys (alistAdd m k v) ↔ k' = k ∨ k' ∈ alistKeys m := by
  induction m with
  | nil => simp [alistAdd, alistKeys, eq_comm]
  | cons p rest ih =>
    by_cases h0 : p.1 = k
    · rw [show alistAdd (p :: rest) k v = (p.1, p.2 + v) :: rest by
        simp [alistAdd, h0]]
      subst h0
      rw [alistKeys, List.map_cons]
      simp [alistKeys]
    · rw [show alistAdd (p :: rest) k v = (p.1, p.2) :: alistAdd rest k v by
        simp [alistAdd, h0]]
      simp [alistKeys] at ih ⊢
      tauto

theorem nodup_keys_alistAdd {β : Type} [Add β] (m : List (String × β))
    (k : String) (v : β) (h : (alistKeys m).Nodup) :
    (alistKeys (alistAdd m k v)).Nodup := by
  induction m with
  | nil => simp [alistAdd, alistKeys]
  | cons p rest ih =>
    rw [alistKeys, List.map_cons, List.nodup_cons] at h
    by_cases h0 : p.1 = k
    · rw [show alistAdd (p :: rest) k v = (p.1, p.2 + v) :: rest by
        simp [alistAdd, h0]]
      rw [alistKeys, List.map_cons, List.nodup_cons]
      exact ⟨h.1, h.2⟩
    · rw [show alistAdd (p :: rest) k v = (p.1, p.2) :: alistAdd rest k v by
        simp [alistAdd, h0]]
      rw [alistKeys, List.map_cons, List.nodup_cons]
      refine ⟨?_, ih h.2⟩
      intro hmem
      rcases (mem_keys_alistAdd rest k p.1 v).mp hmem with hh | hh
      · exact h0 hh
      · exact h.1 hh

theorem mem_keys_alistSet {β : Type} (m : List (String × β)) (k k' : String)
    (v : β) :
    k' ∈ alistKeys (alistSet m k v) ↔ k' = k ∨ k' ∈ alistKeys m := by
  induction m with
  | nil => simp [alistSet, alistKeys, eq_comm]
  | cons p rest ih =>
    by_cases h0 : p.1 = k
    · rw [show alistSet (p :: rest) k v = (p.1, v) :: rest by
        simp [alistSet, h0]]
      subst h0
      rw [alistKeys, List.map_cons]
      simp [alistKeys]
    · rw [show alistSet (p :: rest) k v = (p.1, p.2) :: alistSet rest k v by
        simp [alistSet, h0]]
      simp [alistKeys] at ih ⊢
      tauto

theorem nodup_keys_alistSet {β : Type} (m : List (String × β)) (k : String)
    (v : β) (h : (alistKeys m).Nodup) :
    (alistKeys (alistSet m k v)).Nodup := by
  induction m with
  | nil => simp [alistSet, alistKeys]
  | cons p rest ih =>
    rw [alistKeys, List.map_cons, List.nodup_cons] at h
    by_cases h0 : p.1 = k
    · rw [show alistSet (p :: rest) k v = (p.1, v) :: rest by
        simp [alistSet, h0]]
      rw [alistKeys, List.map_cons, List.nodup_cons]
      exact ⟨h.1, h.2⟩
    · rw [show alistSet (p :: rest) k v = (p.1, p.2) :: alistSet rest k v by
        simp [alistSet, h0]]
      rw [alistKeys, List.map_cons, List.nodup_cons]
      refine ⟨?_, ih h.2⟩
      intro hmem
      rcases (mem_keys_alistSet rest k p.1 v).mp hmem with hh | hh
      · exact h0 hh
      · exact h.1 hh

theorem alist_vals_alistAdd {β : Type} [Add β] (P : β → Prop)
    (hP : ∀ a b, P a → P b → P (a + b)) (m : List (String × β)) (k : String)
    (v : β) (hm : ∀ p ∈ m, P p.2) (hv : P v) :
    ∀ p ∈ alistAdd m k v, P p.2 := by
  induction m with
  | nil =>
    intro p hp
    simp [alistAdd] at hp
    simpa [hp] using hv
  | cons q rest ih =>
    by_cases h0 : q.1 = k
    · rw [show alistAdd (q :: rest) k v = (q.1, q.2 + v) :: rest by
        simp [alistAdd, h0]]
      intro p hp
      rcases List.mem_cons.mp hp with h | h
      · simpa [h] using hP _ _ (hm q (by simp)) hv
      · exact hm p (by simp [h])
    · rw [show alistAdd (q :: rest) k v = (q.1, q.2) :: alistAdd rest k v by
        simp [alistAdd, h0]]
      intro p hp
      rcases List.mem_cons.mp hp with h | h
      · simpa [h] using hm q (by simp)
      · exact ih (fun r hr => hm r (by simp [hr])) p h

theorem alist_vals_alistSet {β : Type} (P : β → Prop) (m : List (String × β))
    (k : String) (v : β) (hm : ∀ p ∈ m, P p.2) (hv : P v) :
    ∀ p ∈ alistSet m k v, P p.2 := by
  induction m with
  | nil =>
    intro p hp
    simp [alistSet] at hp
    simpa [hp] using hv
  | cons q rest ih =>
    by_cases h0 : q.1 = k
    · rw [show alistSet (q :: rest) k v = (q.1, v) :: rest by
        simp [alistSet, h0]]
      intro p hp
      rcases List.mem_cons.mp hp with h | h
      · simpa [h] using hv
      · exact hm p (by simp [h])
    · rw [show alistSet (q :: rest) k v = (q.1, q.2) :: alistSet rest k v by
        simp [alistSet, h0]]
      intro p hp
      rcases List.mem_cons.mp hp with h | h
      · simpa [h] using hm q (by simp)
      · exact ih (fun r hr => hm r (by simp [hr])) p h

/-! ### Counter lemmas -/

theorem counter_aux_getD (ts : List String) (acc : List (String × ℕ))
    (t : String) :
    alistGetD (ts.foldl (fun acc u => alistAdd acc u 1) acc) t 0
      = alistGetD acc t 0 + ts.count t := by
  induction ts generalizing acc with
  | nil => simp
  | cons u ts' ih =>
    have h1 : (u :: ts').foldl (fun acc u => alistAdd acc u 1) acc
        = ts'.foldl (fun acc u => alistAdd acc u 1) (alistAdd acc u 1) := rfl
    rw [h1, ih, alistGetD_alistAdd, List.count_cons]
    by_cases h : t = u
    · simp [h]
      omega
    · have h' : ¬ (t == u) = true := by simpa using h
      simp [h, h']
      exact fun hh => h hh.symm

theorem counter_getD (ts : List String) (t : String) :
    alistGetD (counter ts) t 0 = ts.count t := by
  simpa [counter, alistGetD] using counter_aux_getD ts [] t

theorem counter_aux_mem_keys (ts : List String) (acc : List (String × ℕ))
    (t : String) :
    t ∈ alistKeys (ts.foldl (fun acc u => alistAdd acc u 1) acc)
      ↔ t ∈ alistKeys acc ∨ t ∈ ts := by
  induction ts generalizing acc with
  | nil => simp
  | cons u ts' ih =>
    have h1 : (u :: ts').foldl (fun acc u => alistAdd acc u 1) acc
        = ts'.foldl (fun acc u => alistAdd acc u 1) (alistAdd acc u 1) := rfl
    rw [h1, ih]
    rw [show (t ∈ alistKeys (alistAdd acc u 1)) ↔ (t = u ∨ t ∈ alistKeys acc) from
      mem_keys_alistAdd acc u t 1]
    simp [List.mem_cons]
    tauto

theorem mem_keys_counter (ts : List String) (t : String) :
    t ∈ alistKeys (counter ts) ↔ t ∈ ts := by
  simpa [counter, alistKeys] using counter_aux_mem_keys ts [] t

theorem nodup_keys_counter (ts : List String) :
    (alistKeys (counter ts)).Nodup := by
  have haux : ∀ acc : List (String × ℕ), (alistKeys acc).Nodup →
      (alistKeys (ts.foldl (fun acc u => alistAdd acc u 1) acc)).Nodup := by
    induction ts with
    | nil => intro acc h; simpa using h
    | cons u ts' ih =>
      intro acc h
      exact ih (alistAdd acc u 1) (nodup_keys_alistAdd acc u 1 h)
  simpa [counter] using haux [] (by simp [alistKeys])

/-! ### Filtering an association list on one key -/

theorem alist_filter_key_nil {β : Type} (m : List (String × β)) (t : String)
    (h : t ∉ alistKeys m) :
    m.filter (fun p => decide (p.1 = t)) = [] := by
  apply List.filter_eq_nil_iff.mpr
  intro p hp
  simp only [decide_eq_true_eq]
  intro hpt
  exact h (hpt ▸ List.mem_map_of_mem Prod.fst hp)

theorem alist_filter_key {β : Type} (m : List (String × β)) (t : String)
    (d : β) (hnd : (alistKeys m).Nodup) (hmem : t ∈ alistKeys m) :
    m.filter (fun p => decide (p.1 = t)) = [(t, alistGetD m t d)] := by
  induction m with
  | nil => cases hmem
  | cons p rest ih =>
    rw [alistKeys, List.map_cons, List.nodup_cons] at hnd
    by_cases h0 : p.1 = t
    · have hrest : t ∉ alistKeys rest := h0 ▸ hnd.1
      have hcons : (p :: rest).filter (fun p => decide (p.1 = t))
          = p :: rest.filter (fun p => decide (p.1 = t)) := by
        simp [List.filter_cons, h0]
      rw [hcons, alist_filter_key_nil rest t hrest]
      have hget : alistGetD (p :: rest) t d = p.2 := by
        simp [alistGetD, h0]
      rw [hget, ← h0]
    · have hmem' : t ∈ alistKeys rest := by
        rcases List.mem_cons.mp hmem with h | h
        · exact absurd h.symm h0
        · exact h
      have hcons : (p :: rest).filter (fun p => decide (p.1 = t))
          = rest.filter (fun p => decide (p.1 = t)) := by
        simp [List.filter_cons, h0]
      have hget : alistGetD (p :: rest) t d = alistGetD rest t d := by
        simp [alistGetD, h0]
      rw [hcons, hget]
      exact ih hnd.2 hmem'

/-! ### Pointwise value of an accumulating fold -/

theorem foldl_alistAdd_getD (l : List (String × ℕ)) (g : String × ℕ → ℝ)
    (vec : List (String × ℝ)) (t : String) :
    alistGetD (l.foldl (fun v p => alistAdd v p.1 (g p)) vec) t 0
      = alistGetD vec t 0 + ((l.filter fun p => decide (p.1 = t)).map g).sum := by
  induction l generalizing vec with
  | nil => simp
  | cons p l' ih =>
    have h1 : (p :: l').foldl (fun v q => alistAdd v q.1 (g q)) vec
        = l'.foldl (fun v q => alistAdd v q.1 (g q)) (alistAdd vec p.1 (g p)) := rfl
    rw [h1, ih, alistGetD_alistAdd]
    by_cases h : p.1 = t
    · have h' : t = p.1 := h.symm
      subst h'
      simp [List.filter_cons]
      ring
    · have h' : ¬ (t = p.1) := fun hh => h hh.symm
      simp [List.filter_cons, h, h']

/-! ### Sum-of-squares lemmas for association lists -/

theorem alist_sumSq_nonneg (v : List (String × ℝ)) :
    0 ≤ ((v.map fun q => q.2 ^ 2)).sum :=
  List.sum_nonneg fun x hx => by
    rcases List.mem_map.mp hx with ⟨q, _, hq⟩
    exact hq ▸ sq_nonneg q.2

theorem alist_sumSq_erase (v : List (String × ℝ)) (t : String)
    (hmem : t ∈ alistKeys v) :
    ((v.map fun q => q.2 ^ 2)).sum
      = (alistGetD v t 0) ^ 2 + (((alistEraseKey v t).map fun q => q.2 ^ 2)).sum := by
  induction v with
  | nil => cases hmem
  | cons p rest ih =>
    by_cases h0 : p.1 = t
    · have herase : alistEraseKey (p :: rest) t = rest := by
        simp [alistEraseKey, h0]
      have hget : alistGetD (p :: rest) t 0 = p.2 := by
        simp [alistGetD, h0]
      rw [herase, hget, List.map_cons, List.sum_cons]
    · have herase : alistEraseKey (p :: rest) t = p :: alistEraseKey rest t := by
        simp [alistEraseKey, h0]
      have hget : alistGetD (p :: rest) t 0 = alistGetD rest t 0 := by
        simp [alistGetD, h0]
      have hmem' : t ∈ alistKeys rest := by
        rcases List.mem_cons.mp hmem with h | h
        · exact absurd h.symm h0
        · exact h
      rw [herase, hget, List.map_cons, List.sum_cons, List.map_cons,
        List.sum_cons, ih hmem']
      ring

theorem alistGetD_eraseKey_ne {β : Type} (v : List (String × β)) (t k : String)
    (d : β) (hk : k ≠ t) :
    alistGetD (alistEraseKey v t) k d = alistGetD v k d := by
  induction v with
  | nil => rfl
  | cons p rest ih =>
    by_cases h0 : p.1 = t
    · have herase : alistEraseKey (p :: rest) t = rest := by
        simp [alistEraseKey, h0]
      have hne : ¬ (p.1 = k) := fun hh => hk ((hh.symm.trans h0))
      rw [herase, show alistGetD (p :: rest) k d = alistGetD rest k d by
        simp [alistGetD, hne]]
    · have herase : alistEraseKey (p :: rest) t = p :: alistEraseKey rest t := by
        simp [alistEraseKey, h0]
      rw [herase]
      by_cases h1 : p.1 = k
      · simp [alistGetD, h1]
      · rw [show alistGetD (p :: alistEraseKey rest t) k d
            = alistGetD (alistEraseKey rest t) k d by simp [alistGetD, h1],
          show alistGetD (p :: rest) k d = alistGetD rest k d by
            simp [alistGetD, h1]]
        exact ih

theorem subset_sumSq (ks : List String) (v : List (String × ℝ))
    (hnd : ks.Nodup) :
    ((ks.map fun k => (alistGetD v k 0) ^ 2)).sum
      ≤ ((v.map fun q => q.2 ^ 2)).sum := by
  induction ks generalizing v with
  | nil => simpa using alist_sumSq_nonneg v
  | cons k ks' ih =>
    rw [List.nodup_cons] at hnd
    rw [List.map_cons, List.sum_cons]
    by_cases hmem : k ∈ alistKeys v
    · have hrw : ∀ k' ∈ ks', (alistGetD v k' 0) ^ 2
          = (alistGetD (alistEraseKey v k) k' 0) ^ 2 := by
        intro k' hk'
        have hne : k' ≠ k := fun hh => hnd.1 (hh ▸ hk')
        rw [alistGetD_eraseKey_ne v k k' 0 hne]
      rw [List.map_congr_left hrw, alist_sumSq_erase v k hmem]
      exact add_le_add_left (ih (alistEraseKey v k) hnd.2) _
    · rw [alistGetD_of_not_mem_keys v k 0 hmem]
      have h2 := ih v hnd.2
      simpa using h2

/-! ### Cauchy-Schwarz for lists of pairs -/

theorem list_cauchy_schwarz (l : List (ℝ × ℝ)) :
    ((l.map fun p => p.1 * p.2).sum) ^ 2
      ≤ ((l.map fun p => p.1 ^ 2).sum) * ((l.map fun p => p.2 ^ 2).sum) := by
  induction l with
  | nil => simp
  | cons p l' ih =>
    have hA : 0 ≤ (l'.map fun p => p.1 ^ 2).sum :=
      List.sum_nonneg fun x hx => by
        rcases List.mem_map.mp hx with ⟨q, _, hq⟩
        exact hq ▸ sq_nonneg q.1
    have hB : 0 ≤ (l'.map fun p => p.2 ^ 2).sum :=
      List.sum_nonneg fun x hx => by
        rcases List.mem_map.mp hx with ⟨q, _, hq⟩
        exact hq ▸ sq_nonneg q.2
    simp only [List.map_cons, List.sum_cons]
    have key : 2 * (p.1 * p.2) * (l'.map fun p => p.1 * p.2).sum
        ≤ p.1 ^ 2 * (l'.map fun p => p.2 ^ 2).sum
          + p.2 ^ 2 * (l'.map fun p => p.1 ^ 2).sum := by
      rcases eq_or_lt_of_le hB with hB0 | hBpos
      · have hS0 : (l'.map fun p => p.1 * p.2).sum = 0 := by
          have h2 : ((l'.map fun p => p.1 * p.2).sum) ^ 2 ≤ 0 := by
            calc ((l'.map fun p => p.1 * p.2).sum) ^ 2
                ≤ (l'.map fun p => p.1 ^ 2).sum * (l'.map fun p => p.2 ^ 2).sum := ih
              _ = 0 := by rw [← hB0, mul_zero]
          have := sq_nonneg ((l'.map fun p => p.1 * p.2).sum)
          nlinarith
        rw [hS0, ← hB0]
        nlinarith [mul_nonneg (sq_nonneg p.2) hA]
      · nlinarith [sq_nonneg (p.1 * (l'.map fun p => p.2 ^ 2).sum
            - p.2 * (l'.map fun p => p.1 * p.2).sum),
          mul_nonneg (sq_nonneg p.2)
            (sub_nonneg.mpr ih), hBpos]
    nlinarith [key, ih, mul_nonneg hA hB, sq_nonneg (p.1 * p.2)]

/-! ### pyOrOne lemmas -/

theorem pyOrOne_pos (x : ℝ) (hx : 0 ≤ x) : 0 < pyOrOne x := by
  unfold pyOrOne
  by_cases h : x = 0
  · simp [h]
  · simpa [h] using lt_of_le_of_ne hx (Ne.symm h)

theorem le_pyOrOne (x : ℝ) (hx : 0 ≤ x) : x ≤ pyOrOne x := by
  unfold pyOrOne
  by_cases h : x = 0
  · simp [h]
  · simp [h]

theorem pyOrOne_of_pos (x : ℝ) (hx : 0 < x) : pyOrOne x = x := by
  unfold pyOrOne
  rw [if_neg (ne_of_gt hx)]

/-! ### Generic list-sum lemmas -/

theorem list_sum_map_add {γ : Type} (l : List γ) (f g : γ → ℝ) :
    (l.map fun x => f x + g x).sum = (l.map f).sum + (l.map g).sum := by
  induction l with
  | nil => simp
  | cons y l' ih =>
    simp only [List.map_cons, List.sum_cons, ih]
    ring

theorem list_sum_map_mul_c {γ : Type} (l : List γ) (f : γ → ℝ) (c : ℝ) :
    (l.map fun x => c * f x).sum = c * (l.map f).sum := by
  induction l with
  | nil => simp
  | cons y l' ih =>
    simp only [List.map_cons, List.sum_cons, ih]
    ring

theorem list_sum_map_div_sq {γ : Type} (l : List γ) (f : γ → ℝ) (c : ℝ) :
    (l.map fun x => (f x / c) ^ 2).sum = (l.map fun x => (f x) ^ 2).sum / c ^ 2 := by
  calc (l.map fun x => (f x / c) ^ 2).sum
      = (l.map fun x => c⁻¹ ^ 2 * (f x) ^ 2).sum := by
        refine congrArg List.sum (List.map_congr_left fun x _ => ?_)
        rw [div_pow]
        ring
    _ = c⁻¹ ^ 2 * (l.map fun x => (f x) ^ 2).sum :=
        list_sum_map_mul_c l (fun x => (f x) ^ 2) (c⁻¹ ^ 2)
    _ = (l.map fun x => (f x) ^ 2).sum / c ^ 2 := by
        rw [inv_pow]
        ring

theorem list_sum_swap {γ δ : Type} (K : List γ) (D : List δ) (g : γ → δ → ℝ) :
    (K.map fun t => (D.map fun d => g t d).sum).sum
      = (D.map fun d => (K.map fun t => g t d).sum).sum := by
  induction K with
  | nil => simp
  | cons t K' ih =>
    simp only [List.map_cons, List.sum_cons]
    rw [ih]
    exact (list_sum_map_add D (fun d => g t d)
      (fun d => (K'.map fun u => g u d).sum)).symm

theorem list_sum_filter_ne_zero (xs : List ℝ) :
    xs.sum = (xs.filter fun x => decide (x ≠ 0)).sum := by
  induction xs with
  | nil => rfl
  | cons a xs' ih =>
    simp only [ne_eq, decide_not] at ih ⊢
    by_cases h : a = 0
    · simp [List.filter_cons, h, ← ih]
    · simp [List.filter_cons, h, List.sum_cons, ← ih]

theorem list_sumSq_filter_ne_zero (xs : List ℝ) :
    (xs.map fun x => x ^ 2).sum
      = ((xs.filter fun x => decide (x ≠ 0)).map fun x => x ^ 2).sum := by
  induction xs with
  | nil => rfl
  | cons a xs' ih =>
    simp only [ne_eq, decide_not] at ih ⊢
    by_cases h : a = 0
    · simp [List.filter_cons, h, ← ih]
    · simp [List.filter_cons, h, ← ih]

theorem sum_sq_le_two_mul_aux (ys : List ℝ) (h : ys.length ≤ 2) :
    (ys.sum) ^ 2 ≤ 2 * ((ys.map fun x => x ^ 2).sum) := by
  rcases ys with _ | ⟨a, _ | ⟨b, _ | ⟨c, tl⟩⟩⟩
  · simp
  · simp only [List.sum_cons, List.sum_nil, List.map_cons, List.map_nil, add_zero]
    nlinarith [sq_nonneg a]
  · simp only [List.sum_cons, List.sum_nil, List.map_cons, List.map_nil, add_zero]
    nlinarith [sq_nonneg (a - b)]
  · exfalso
    simp only [List.length_cons] at h
    omega

/-- A sum of at most two nonzero reals squared is bounded by twice the sum
of the squares. -/
theorem sum_sq_le_two_mul (xs : List ℝ)
    (h : (xs.filter fun x => decide (x ≠ 0)).length ≤ 2) :
    (xs.sum) ^ 2 ≤ 2 * ((xs.map fun x => x ^ 2).sum) := by
  rw [list_sum_filter_ne_zero xs, list_sumSq_filter_ne_zero xs]
  exact sum_sq_le_two_mul_aux _ h

/-! ### Weighted subset sums over association lists -/

theorem alist_sumF_erase {β : Type} (F : String → β → ℝ) (v : List (String × β))
    (t : String) (hmem : t ∈ alistKeys v) (d : β) :
    ((v.map fun q => F q.1 q.2)).sum
      = F t (alistGetD v t d)
        + (((alistEraseKey v t).map fun q => F q.1 q.2)).sum := by
  induction v with
  | nil => cases hmem
  | cons p rest ih =>
    by_cases h0 : p.1 = t
    · have herase : alistEraseKey (p :: rest) t = rest := by
        simp [alistEraseKey, h0]
      have hget : alistGetD (p :: rest) t d = p.2 := by
        simp [alistGetD, h0]
      rw [herase, hget, List.map_cons, List.sum_cons, h0]
    · have herase : alistEraseKey (p :: rest) t = p :: alistEraseKey rest t := by
        simp [alistEraseKey, h0]
      have hget : alistGetD (p :: rest) t d = alistGetD rest t d := by
        simp [alistGetD, h0]
      have hmem' : t ∈ alistKeys rest := by
        rcases List.mem_cons.mp hmem with h | h
        · exact absurd h.symm h0
        · exact h
      rw [herase, hget, List.map_cons, List.sum_cons, List.map_cons,
        List.sum_cons, ih hmem']
      ring

theorem subset_sumF {β : Type} (F : String → β → ℝ) (d : β)
    (hFd : ∀ k, F k d = 0) (hFnn : ∀ k b, 0 ≤ F k b)
    (ks : List String) (v : List (String × β)) (hnd : ks.Nodup) :
    ((ks.map fun k => F k (alistGetD v k d))).sum
      ≤ ((v.map fun q => F q.1 q.2)).sum := by
  induction ks generalizing v with
  | nil =>
    simp only [List.map_nil, List.sum_nil]
    exact List.sum_nonneg fun x hx => by
      rcases List.mem_map.mp hx with ⟨q, _, hq⟩
      exact hq ▸ hFnn q.1 q.2
  | cons k ks' ih =>
    rw [List.nodup_cons] at hnd
    rw [List.map_cons, List.sum_cons]
    by_cases hmem : k ∈ alistKeys v
    · have hrw : ∀ k' ∈ ks', F k' (alistGetD v k' d)
          = F k' (alistGetD (alistEraseKey v k) k' d) := by
        intro k' hk'
        have hne : k' ≠ k := fun hh => hnd.1 (hh ▸ hk')
        rw [alistGetD_eraseKey_ne v k k' d hne]
      rw [List.map_congr_left hrw, alist_sumF_erase F v k hmem d]
      exact add_le_add_left (ih (alistEraseKey v k) hnd.2) _
    · rw [alistGetD_of_not_mem_keys v k d hmem, hFd k]
      have h2 := ih v hnd.2
      simpa using h2

/-- The binding of a present key is a member of the association list. -/
theorem alist_getD_mem {β : Type} (m : List (String × β)) (k : String) (d : β)
    (h : k ∈ alistKeys m) : (k, alistGetD m k d) ∈ m := by
  induction m with
  | nil => cases h
  | cons p rest ih =>
    by_cases h0 : p.1 = k
    · rw [show alistGetD (p :: rest) k d = p.2 from by simp [alistGetD, h0], ← h0]
      exact List.mem_cons_self _ _
    · have hmem' : k ∈ alistKeys rest := by
        rcases List.mem_cons.mp h with h | h
        · exact absurd h.symm h0
        · exact h
      rw [show alistGetD (p :: rest) k d = alistGetD rest k d from by
        simp [alistGetD, h0]]
      exact List.mem_cons_of_mem p (ih hmem')

/-! ### src/intent_classifier.py -/

namespace IntentClassifier

/-- A TF-IDF weighted term vector (a Python dict of floats). -/
abbrev Vec := List (String × ℝ)

/-- The intent examples mapping, in dict insertion order. -/
abbrev IntentSet := List (String × List String)

/-- _DEFAULT_INTENTS of src/intent_classifier.py. -/
def defaultIntents : IntentSet := [
  ("my-team-summary", ["show my team", "display my squad",
    "what is my lineup", "give me squad summary"]),
  ("ai-team-performance", ["how will my team perform next week",
    "predict my squad score", "forecast my team points",
    "how did i score this week", "how did i do this week"]),
  ("smart-captaincy", ["who should i captain", "captain suggestion",
    "best captain pick"]),
  ("current-captain", ["who is my captain", "current captain",
    "who is captain right now"]),
  ("chip-advice", ["when should i use my chips", "chip strategy",
    "bench boost or triple captain", "should i free hit",
    "wildcard advice"]),
  ("transfer-suggester", ["recommend a transfer", "who should i sell",
    "transfer advice"]),
  ("injury-risk", ["any injury risks", "who is flagged",
    "players with injury"]),
  ("ai-predictions", ["ai top performers", "who will score the most",
    "best players next week"]),
  ("league-head-to-head", ["will i beat", "head to head",
    "versus in my league"]),
  ("league-current", ["current league standings", "show table now",
    "league position right now"]),
  ("league-predictions", ["predict my league", "league standings forecast"]),
  ("differential-hunter", ["show me differentials", "low owned players"]),
  ("predicted-top-performers", ["predict top performers",
    "top scorers next week"]),
  ("dream-team", ["build dream team", "wildcard squad"]),
  ("quadrant-analysis", ["form vs fixture", "quadrant analysis"])]

/-- Documents and labels built by _fit: each example tokenized and paired
with its intent, examples with no tokens skipped. -/
def fitDocs (intents : IntentSet) : List (List String × String) :=
  (intents.map fun p => p.2.filterMap fun ex =>
    let ts := tokenize ex
    if ts.isEmpty then none else some (ts, p.1)).flatten

/-- Document frequency of a term over the fitted example documents. -/
def docFreq (intents : IntentSet) (t : String) : ℕ :=
  ((fitDocs intents).filter fun d => decide (t ∈ d.1)).length

/-- Whether a term is in the classifier's idf table (self.idf stores
exactly the terms occurring in at least one document). -/
def inVocab (intents : IntentSet) (t : String) : Bool :=
  decide (0 < docFreq intents t)

/-- Smoothed idf value: ln((N+1)/(df+1)) + 1. -/
noncomputable def idfVal (intents : IntentSet) (t : String) : ℝ :=
  Real.log ((((fitDocs intents).length : ℝ) + 1) / ((docFreq intents t : ℝ) + 1)) + 1

/-- Per-document L2 norm of the tf-idf weights, with the `or 1.0`
fallback on a zero norm. -/
noncomputable def docNorm (intents : IntentSet) (tokens : List String) : ℝ :=
  pyOrOne (Real.sqrt (((counter tokens).map
    fun p => ((p.2 : ℝ) * idfVal intents p.1) ^ 2).sum))

/-- Accumulate one document's normalized tf-idf weights into an intent's
vector (`intent_vectors[label][token] += weight`). -/
noncomputable def addDocVec (intents : IntentSet) (vec : Vec)
    (tokens : List String) : Vec :=
  (counter tokens).foldl
    (fun v p =>
      alistAdd v p.1 (((p.2 : ℝ) * idfVal intents p.1) / docNorm intents tokens))
    vec

/-- The per-label accumulation state of _fit after processing a document
list: intent_vectors and intent_counts, both in first-touch order. -/
noncomputable def accumState (intents : IntentSet)
    (docs : List (List String × String)) :
    List (String × Vec) × List (String × ℕ) :=
  docs.foldl
    (fun st d =>
      (alistSet st.1 d.2 (addDocVec intents (alistGetD st.1 d.2 []) d.1),
        alistAdd st.2 d.2 1))
    ([], [])

/-- Per-intent centroids: each accumulated vector divided componentwise by
max(intent_counts[intent], 1). -/
noncomputable def fitCentroids (intents : IntentSet) : List (String × Vec) :=
  (accumState intents (fitDocs intents)).1.map fun p =>
    (p.1, p.2.map fun q =>
      (q.1, q.2 / ((max (alistGetD (accumState intents (fitDocs intents)).2 p.1 0) 1 : ℕ) : ℝ)))

/-- The weighted, L2-normalized query vector built by classify, skipping
terms outside the idf table. -/
noncomputable def queryVec (intents : IntentSet) (text : String) : Vec :=
  let tf := counter (tokenize text)
  let vec := tf.filterMap fun p =>
    if inVocab intents p.1 then some (p.1, ((p.2 : ℝ) * idfVal intents p.1))
    else none
  let norm := pyOrOne (Real.sqrt ((vec.map fun p => p.2 ^ 2).sum))
  vec.map fun p => (p.1, p.2 / norm)

/-- _cosine_similarity with the `or 1.0` fallback on zero denominators. -/
noncomputable def cosineSimilarity (a b : Vec) : ℝ :=
  let numerator := (a.map fun p => p.2 * alistGetD b p.1 0).sum
  let denomA := pyOrOne (Real.sqrt ((a.map fun p => p.2 ^ 2).sum))
  let denomB := pyOrOne (Real.sqrt ((b.map fun p => p.2 ^ 2).sum))
  numerator / (denomA * denomB)

/-- The ClassificationResult dataclass. -/
structure ClassificationResult where
  intent : Option String
  score : ℝ

/-- IntentClassifier.classify against the classifier fitted from
`intents`: empty-token queries score 0, otherwise the best centroid by
cosine similarity, with the best intent reported only at or above the
threshold. -/
noncomputable def classify (intents : IntentSet) (text : String)
    (threshold : ℝ) : ClassificationResult :=
  let tokens := tokenize text
  if tokens.isEmpty then ⟨none, 0⟩
  else
    let vecN := queryVec intents text
    let best := (fitCentroids intents).foldl
      (fun acc p =>
        let score := cosineSimilarity vecN p.2
        if acc.2 < score then (some p.1, score) else acc)
      ((none : Option String), (0 : ℝ))
    if threshold ≤ best.2 then ⟨best.1, best.2⟩ else ⟨none, best.2⟩

/-! ### Values contributed by one document to its intent's vector -/

/-- Contribution of one document to the accumulated weight of token `t`:
its normalized tf-idf weight when the token occurs, 0 otherwise (the
formula is 0 exactly when the count is 0). -/
noncomputable def docContrib (intents : IntentSet) (tokens : List String)
    (t : String) : ℝ :=
  ((tokens.count t : ℝ) * idfVal intents t) / docNorm intents tokens

/-- Sum of per-document contributions over the documents of one label. -/
noncomputable def labelSum (intents : IntentSet)
    (docs : List (List String × String)) (lab t : String) : ℝ :=
  ((docs.filter fun d => decide (d.2 = lab)).map
    fun d => docContrib intents d.1 t).sum

/-- Number of documents carrying one label. -/
def labelCount (docs : List (List String × String)) (lab : String) : ℕ :=
  (docs.filter fun d => decide (d.2 = lab)).length

/-- Weight of token `t` in the centroid of intent `lab`. -/
noncomputable def centroidVal (intents : IntentSet) (lab t : String) : ℝ :=
  alistGetD (alistGetD (fitCentroids intents) lab []) t 0

/-! ### Positivity facts -/

theorem docFreq_le_length (intents : IntentSet) (t : String) :
    docFreq intents t ≤ (fitDocs intents).length :=
  List.length_filter_le _ _

theorem one_le_idfVal (intents : IntentSet) (t : String) :
    1 ≤ idfVal intents t := by
  unfold idfVal
  have harg : (1 : ℝ) ≤ (((fitDocs intents).length : ℝ) + 1)
      / ((docFreq intents t : ℝ) + 1) := by
    rw [le_div_iff (by positivity)]
    have := docFreq_le_length intents t
    have hc : (docFreq intents t : ℝ) ≤ ((fitDocs intents).length : ℝ) :=
      Nat.cast_le.mpr this
    linarith
  have := Real.log_nonneg harg
  linarith

theorem idfVal_pos (intents : IntentSet) (t : String) : 0 < idfVal intents t :=
  lt_of_lt_of_le one_pos (one_le_idfVal intents t)

theorem docNorm_pos (intents : IntentSet) (tokens : List String) :
    0 < docNorm intents tokens :=
  pyOrOne_pos _ (Real.sqrt_nonneg _)

theorem docContrib_nonneg (intents : IntentSet) (tokens : List String)
    (t : String) : 0 ≤ docContrib intents tokens t :=
  div_nonneg (mul_nonneg (Nat.cast_nonneg _) (idfVal_pos intents t).le)
    (docNorm_pos intents tokens).le

theorem docContrib_pos (intents : IntentSet) (tokens : List String)
    (t : String) (h : t ∈ tokens) : 0 < docContrib intents tokens t := by
  have hc : 0 < tokens.count t := List.count_pos_iff_mem.mpr h
  exact div_pos
    (mul_pos (by exact_mod_cast hc) (idfVal_pos intents t))
    (docNorm_pos intents tokens)

/-! ### Pointwise value of the accumulated intent vectors -/

/-- One step of the _fit accumulation loop. -/
noncomputable def fitStep (intents : IntentSet)
    (st : List (String × Vec) × List (String × ℕ))
    (d : List String × String) :
    List (String × Vec) × List (String × ℕ) :=
  (alistSet st.1 d.2 (addDocVec intents (alistGetD st.1 d.2 []) d.1),
    alistAdd st.2 d.2 1)

theorem accumState_eq_foldl (intents : IntentSet)
    (docs : List (List String × String)) :
    accumState intents docs = docs.foldl (fitStep intents) ([], []) := rfl

theorem addDocVec_getD (intents : IntentSet) (vec : Vec)
    (tokens : List String) (t : String) :
    alistGetD (addDocVec intents vec tokens) t 0
      = alistGetD vec t 0 + docContrib intents tokens t := by
  unfold addDocVec docContrib
  rw [foldl_alistAdd_getD]
  congr 1
  by_cases hmem : t ∈ alistKeys (counter tokens)
  · rw [alist_filter_key (counter tokens) t 0 (nodup_keys_counter tokens) hmem]
    simp [counter_getD]
  · rw [alist_filter_key_nil _ _ hmem]
    have hcount : tokens.count t = 0 := by
      rw [← counter_getD]
      exact alistGetD_of_not_mem_keys _ _ _ hmem
    simp [hcount]

theorem foldl_fitStep_fst (intents : IntentSet)
    (docs : List (List String × String)) :
    ∀ (st : List (String × Vec) × List (String × ℕ)) (lab t : String),
    alistGetD (alistGetD (docs.foldl (fitStep intents) st).1 lab []) t 0
      = alistGetD (alistGetD st.1 lab []) t 0
        + labelSum intents docs lab t := by
  induction docs with
  | nil => intro st lab t; simp [labelSum]
  | cons d docs' ih =>
    intro st lab t
    have h1 : (d :: docs').foldl (fitStep intents) st
        = docs'.foldl (fitStep intents) (fitStep intents st d) := rfl
    rw [h1, ih]
    have h2 : alistGetD (fitStep intents st d).1 lab []
        = if lab = d.2 then addDocVec intents (alistGetD st.1 d.2 []) d.1
          else alistGetD st.1 lab [] := by
      unfold fitStep
      exact alistGetD_alistSet _ _ _ _ _
    rw [h2]
    by_cases hlab : lab = d.2
    · rw [if_pos hlab, addDocVec_getD]
      have hlab' : d.2 = lab := hlab.symm
      have h3 : labelSum intents (d :: docs') lab t
          = docContrib intents d.1 t + labelSum intents docs' lab t := by
        unfold labelSum
        simp [List.filter_cons, hlab']
      rw [h3, hlab]
      ring
    · rw [if_neg hlab]
      have hlab' : ¬ (d.2 = lab) := fun hh => hlab hh.symm
      have h3 : labelSum intents (d :: docs') lab t
          = labelSum intents docs' lab t := by
        unfold labelSum
        simp [List.filter_cons, hlab']
      rw [h3]

theorem foldl_fitStep_snd (intents : IntentSet)
    (docs : List (List String × String)) :
    ∀ (st : List (String × Vec) × List (String × ℕ)) (lab : String),
    alistGetD (docs.foldl (fitStep intents) st).2 lab 0
      = alistGetD st.2 lab 0 + labelCount docs lab := by
  induction docs with
  | nil => intro st lab; simp [labelCount]
  | cons d docs' ih =>
    intro st lab
    have h1 : (d :: docs').foldl (fitStep intents) st
        = docs'.foldl (fitStep intents) (fitStep intents st d) := rfl
    rw [h1, ih]
    have h2 : alistGetD (fitStep intents st d).2 lab 0
        = alistGetD st.2 lab 0 + (if lab = d.2 then 1 else 0) := by
      unfold fitStep
      exact alistGetD_alistAdd _ _ _ _
    rw [h2]
    unfold labelCount
    by_cases hlab : lab = d.2
    · rw [if_pos hlab]
      have hlab' : d.2 = lab := hlab.symm
      simp [List.filter_cons, hlab']
      omega
    · rw [if_neg hlab]
      have hlab' : ¬ (d.2 = lab) := fun hh => hlab hh.symm
      simp [List.filter_cons, hlab']

theorem foldl_fitStep_keys (intents : IntentSet)
    (docs : List (List String × String)) :
    ∀ (st : List (String × Vec) × List (String × ℕ)) (k : String),
    k ∈ alistKeys (docs.foldl (fitStep intents) st).1
      ↔ k ∈ alistKeys st.1 ∨ k ∈ docs.map Prod.snd := by
  induction docs with
  | nil => intro st k; simp
  | cons d docs' ih =>
    intro st k
    have h1 : (d :: docs').foldl (fitStep intents) st
        = docs'.foldl (fitStep intents) (fitStep intents st d) := rfl
    rw [h1, ih]
    rw [show k ∈ alistKeys (fitStep intents st d).1
        ↔ (k = d.2 ∨ k ∈ alistKeys st.1) from mem_keys_alistSet _ _ _ _]
    simp [List.mem_cons]
    tauto

theorem foldl_fitStep_keys_nodup (intents : IntentSet)
    (docs : List (List String × String)) :
    ∀ (st : List (String × Vec) × List (String × ℕ)),
    (alistKeys st.1).Nodup →
    (alistKeys (docs.foldl (fitStep intents) st).1).Nodup := by
  induction docs with
  | nil => intro st h; simpa using h
  | cons d docs' ih =>
    intro st h
    exact ih (fitStep intents st d) (nodup_keys_alistSet _ _ _ h)

theorem foldl_alistAdd_vals_nonneg (l : List (String × ℕ))
    (g : String × ℕ → ℝ) (hg : ∀ p, 0 ≤ g p) (vec : Vec)
    (hvec : ∀ q ∈ vec, 0 ≤ q.2) :
    ∀ q ∈ l.foldl (fun v p => alistAdd v p.1 (g p)) vec, 0 ≤ q.2 := by
  induction l generalizing vec with
  | nil => simpa using hvec
  | cons p l' ih =>
    have h1 : (p :: l').foldl (fun v q => alistAdd v q.1 (g q)) vec
        = l'.foldl (fun v q => alistAdd v q.1 (g q)) (alistAdd vec p.1 (g p)) := rfl
    rw [h1]
    exact ih _ (alist_vals_alistAdd (fun x => 0 ≤ x)
      (fun a b ha hb => add_nonneg ha hb) vec p.1 (g p) hvec (hg p))

theorem addDocVec_vals_nonneg (intents : IntentSet) (vec : Vec)
    (tokens : List String) (hvec : ∀ q ∈ vec, 0 ≤ q.2) :
    ∀ q ∈ addDocVec intents vec tokens, 0 ≤ q.2 := by
  unfold addDocVec
  refine foldl_alistAdd_vals_nonneg _ _ ?_ vec hvec
  intro p
  exact div_nonneg (mul_nonneg (Nat.cast_nonneg _) (idfVal_pos intents p.1).le)
    (docNorm_pos intents tokens).le

theorem foldl_fitStep_vals_nonneg (intents : IntentSet)
    (docs : List (List String × String)) :
    ∀ (st : List (String × Vec) × List (String × ℕ)),
    (∀ p ∈ st.1, ∀ q ∈ p.2, 0 ≤ q.2) →
    ∀ p ∈ (docs.foldl (fitStep intents) st).1, ∀ q ∈ p.2, 0 ≤ q.2 := by
  induction docs with
  | nil => intro st h; simpa using h
  | cons d docs' ih =>
    intro st h
    refine ih (fitStep intents st d) ?_
    unfold fitStep
    refine alist_vals_alistSet (fun v => ∀ q ∈ v, 0 ≤ q.2) st.1 d.2 _ h ?_
    refine addDocVec_vals_nonneg intents _ d.1 ?_
    exact alistGetD_prop (fun v => ∀ q ∈ v, 0 ≤ q.2) st.1 d.2 [] h (by simp)

/-! ### Centroid characterisation -/

theorem alistGetD_map_pairs (G : String → Vec → Vec) (m : List (String × Vec))
    (k : String) :
    alistGetD (m.map fun p => (p.1, G p.1 p.2)) k []
      = if k ∈ alistKeys m then G k (alistGetD m k []) else [] := by
  induction m with
  | nil => simp [alistGetD, alistKeys]
  | cons p rest ih =>
    by_cases h0 : p.1 = k
    · subst h0
      simp [alistGetD, alistKeys]
    · rw [List.map_cons,
        show alistGetD ((p.1, G p.1 p.2) :: (rest.map fun p => (p.1, G p.1 p.2)))
            k [] = alistGetD (rest.map fun p => (p.1, G p.1 p.2)) k [] by
          simp [alistGetD, h0],
        ih,
        show alistGetD (p :: rest) k [] = alistGetD rest k [] by
          simp [alistGetD, h0]]
      have : (k ∈ alistKeys (p :: rest)) ↔ (k ∈ alistKeys rest) := by
        simp [alistKeys]
        intro hh
        exact absurd hh.symm h0
      rw [if_congr this rfl rfl]

theorem alistGetD_map_div (v : Vec) (n : ℝ) (t : String) :
    alistGetD (v.map fun q => (q.1, q.2 / n)) t 0 = alistGetD v t 0 / n := by
  induction v with
  | nil => simp [alistGetD]
  | cons q rest ih =>
    by_cases h0 : q.1 = t
    · simp [alistGetD, h0]
    · simpa [alistGetD, h0] using ih

theorem alistKeys_map_snd {β γ : Type} (m : List (String × β))
    (f : String × β → γ) :
    alistKeys (m.map fun q => (q.1, f q)) = alistKeys m := by
  simp [alistKeys, List.map_map, Function.comp_def]

theorem centroidVal_eq (intents : IntentSet) (lab t : String) :
    centroidVal intents lab t
      = labelSum intents (fitDocs intents) lab t
        / ((max (labelCount (fitDocs intents) lab) 1 : ℕ) : ℝ) := by
  unfold centroidVal fitCentroids
  rw [alistGetD_map_pairs (fun lab v => v.map fun q =>
    (q.1, q.2 / ((max (alistGetD (accumState intents (fitDocs intents)).2 lab 0) 1 : ℕ) : ℝ)))]
  by_cases hk : lab ∈ alistKeys (accumState intents (fitDocs intents)).1
  · rw [if_pos hk, alistGetD_map_div]
    rw [accumState_eq_foldl, foldl_fitStep_fst, foldl_fitStep_snd]
    simp [alistGetD]
  · rw [if_neg hk]
    have hlab : lab ∉ (fitDocs intents).map Prod.snd := by
      intro hmem
      rw [accumState_eq_foldl] at hk
      exact hk ((foldl_fitStep_keys intents (fitDocs intents) ([], []) lab).mpr
        (Or.inr hmem))
    have hfilter : (fitDocs intents).filter (fun d => decide (d.2 = lab)) = [] := by
      apply List.filter_eq_nil_iff.mpr
      intro d hd
      simp only [decide_eq_true_eq]
      intro hdl
      exact hlab (hdl ▸ List.mem_map_of_mem Prod.snd hd)
    simp [labelSum, hfilter, alistGetD]

theorem list_sum_pos_mem {γ : Type} (l : List γ) (f : γ → ℝ)
    (h0 : ∀ x ∈ l, 0 ≤ f x) (x : γ) (hx : x ∈ l) (hpos : 0 < f x) :
    0 < (l.map f).sum := by
  induction l with
  | nil => cases hx
  | cons y l' ih =>
    rw [List.map_cons, List.sum_cons]
    rcases List.mem_cons.mp hx with h | h
    · subst h
      have : 0 ≤ (l'.map f).sum :=
        List.sum_nonneg fun z hz => by
          rcases List.mem_map.mp hz with ⟨w, hw, hwz⟩
          exact hwz ▸ h0 w (by simp [hw])
      linarith
    · have h1 : 0 ≤ f y := h0 y (by simp)
      have h2 := ih (fun z hz => h0 z (by simp [hz])) h
      linarith

theorem centroidVal_nonneg (intents : IntentSet) (lab t : String) :
    0 ≤ centroidVal intents lab t := by
  rw [centroidVal_eq]
  refine div_nonneg ?_ (Nat.cast_nonneg _)
  exact List.sum_nonneg fun x hx => by
    rcases List.mem_map.mp hx with ⟨d, _, hd⟩
    exact hd ▸ docContrib_nonneg intents d.1 t

theorem centroidVal_zero (intents : IntentSet) (lab t : String)
    (h : ∀ d ∈ fitDocs intents, d.2 = lab → t ∉ d.1) :
    centroidVal intents lab t = 0 := by
  rw [centroidVal_eq]
  have hsum : labelSum intents (fitDocs intents) lab t = 0 := by
    unfold labelSum
    apply List.sum_eq_zero
    intro x hx
    rcases List.mem_map.mp hx with ⟨d, hd, hdx⟩
    rcases List.mem_filter.mp hd with ⟨hdocs, hlab⟩
    have hlab' : d.2 = lab := by simpa using hlab
    have hnot : t ∉ d.1 := h d hdocs hlab'
    have hcount : d.1.count t = 0 := List.count_eq_zero.mpr hnot
    rw [← hdx]
    simp [docContrib, hcount]
  rw [hsum, zero_div]

theorem centroidVal_pos (intents : IntentSet) (lab t : String)
    (h : ∃ d ∈ fitDocs intents, d.2 = lab ∧ t ∈ d.1) :
    0 < centroidVal intents lab t := by
  rcases h with ⟨d, hd, hlab, htok⟩
  rw [centroidVal_eq]
  refine div_pos ?_ ?_
  · unfold labelSum
    refine list_sum_pos_mem _ _ ?_ d ?_ ?_
    · intro x hx
      exact docContrib_nonneg intents x.1 t
    · exact List.mem_filter.mpr ⟨hd, by simpa using hlab⟩
    · exact docContrib_pos intents d.1 t htok
  · have : 1 ≤ max (labelCount (fitDocs intents) lab) 1 := le_max_right _ _
    exact_mod_cast lt_of_lt_of_le zero_lt_one (by exact_mod_cast this)

theorem fitCentroids_mem (intents : IntentSet) :
    ∀ p ∈ fitCentroids intents,
      (∀ q ∈ p.2, 0 ≤ q.2)
      ∧ (∀ t, alistGetD p.2 t 0 = centroidVal intents p.1 t)
      ∧ p.1 ∈ (fitDocs intents).map Prod.snd := by
  intro p hp
  have hnodupAccum : (alistKeys (accumState intents (fitDocs intents)).1).Nodup := by
    rw [accumState_eq_foldl]
    exact foldl_fitStep_keys_nodup intents (fitDocs intents) ([], [])
      (by simp [alistKeys])
  have hnodupCent : (alistKeys (fitCentroids intents)).Nodup := by
    unfold fitCentroids
    rw [alistKeys_map_snd]
    exact hnodupAccum
  refine ⟨?_, ?_, ?_⟩
  · unfold fitCentroids at hp
    rcases List.mem_map.mp hp with ⟨p₀, hp₀, hpe⟩
    have hvals : ∀ q ∈ p₀.2, 0 ≤ q.2 := by
      rw [accumState_eq_foldl] at hp₀
      exact foldl_fitStep_vals_nonneg intents (fitDocs intents) ([], [])
        (by simp) p₀ hp₀
    intro q hq
    rw [← hpe] at hq
    simp only at hq
    rcases List.mem_map.mp hq with ⟨q₀, hq₀, hqe⟩
    rw [← hqe]
    exact div_nonneg (hvals q₀ hq₀) (Nat.cast_nonneg _)
  · intro t
    have hget : alistGetD (fitCentroids intents) p.1 [] = p.2 :=
      alist_mem_getD _ p [] hnodupCent hp
    unfold centroidVal
    rw [hget]
  · unfold fitCentroids at hp
    rcases List.mem_map.mp hp with ⟨p₀, hp₀, hpe⟩
    have hkey : p₀.1 ∈ alistKeys (accumState intents (fitDocs intents)).1 :=
      List.mem_map_of_mem Prod.fst hp₀
    rw [accumState_eq_foldl] at hkey
    rcases (foldl_fitStep_keys intents (fitDocs intents) ([], []) p₀.1).mp hkey
      with hh | hh
    · simp [alistKeys] at hh
    · have : p.1 = p₀.1 := by rw [← hpe]
      rw [this]
      exact hh

/-! ### Cosine similarity bounds -/

theorem alistGetD_nonneg (v : Vec) (k : String) (hv : ∀ q ∈ v, 0 ≤ q.2) :
    0 ≤ alistGetD v k 0 :=
  alistGetD_prop (fun x => 0 ≤ x) v k 0 hv le_rfl

theorem cosine_num_nonneg (a b : Vec) (ha : ∀ p ∈ a, 0 ≤ p.2)
    (hb : ∀ q ∈ b, 0 ≤ q.2) :
    0 ≤ ((a.map fun p => p.2 * alistGetD b p.1 0).sum) :=
  List.sum_nonneg fun x hx => by
    rcases List.mem_map.mp hx with ⟨p, hp, hpx⟩
    exact hpx ▸ mul_nonneg (ha p hp) (alistGetD_nonneg b p.1 hb)

theorem cosine_num_sq_le (a b : Vec) (hka : (alistKeys a).Nodup) :
    ((a.map fun p => p.2 * alistGetD b p.1 0).sum) ^ 2
      ≤ ((a.map fun p => p.2 ^ 2).sum) * ((b.map fun q => q.2 ^ 2).sum) := by
  have hcs := list_cauchy_schwarz (a.map fun p => (p.2, alistGetD b p.1 0))
  have e1 : ((a.map fun p => (p.2, alistGetD b p.1 0)).map fun p => p.1 * p.2)
      = a.map fun p => p.2 * alistGetD b p.1 0 := by
    simp [List.map_map, Function.comp_def]
  have e2 : ((a.map fun p => (p.2, alistGetD b p.1 0)).map fun p => p.1 ^ 2)
      = a.map fun p => p.2 ^ 2 := by
    simp [List.map_map, Function.comp_def]
  have e3 : ((a.map fun p => (p.2, alistGetD b p.1 0)).map fun p => p.2 ^ 2)
      = a.map fun p => (alistGetD b p.1 0) ^ 2 := by
    simp [List.map_map, Function.comp_def]
  rw [e1, e2, e3] at hcs
  have hsub : ((a.map fun p => (alistGetD b p.1 0) ^ 2).sum)
      ≤ ((b.map fun q => q.2 ^ 2).sum) := by
    have e4 : a.map (fun p => (alistGetD b p.1 0) ^ 2)
        = (alistKeys a).map fun k => (alistGetD b k 0) ^ 2 := by
      simp [alistKeys, List.map_map, Function.comp_def]
    rw [e4]
    exact subset_sumSq (alistKeys a) b hka
  calc ((a.map fun p => p.2 * alistGetD b p.1 0).sum) ^ 2
      ≤ ((a.map fun p => p.2 ^ 2).sum) * ((a.map fun p => (alistGetD b p.1 0) ^ 2).sum) := hcs
    _ ≤ ((a.map fun p => p.2 ^ 2).sum) * ((b.map fun q => q.2 ^ 2).sum) :=
        mul_le_mul_of_nonneg_left hsub (alist_sumSq_nonneg a)

theorem cosineSimilarity_nonneg (a b : Vec) (ha : ∀ p ∈ a, 0 ≤ p.2)
    (hb : ∀ q ∈ b, 0 ≤ q.2) : 0 ≤ cosineSimilarity a b := by
  unfold cosineSimilarity
  exact div_nonneg (cosine_num_nonneg a b ha hb)
    (mul_nonneg (pyOrOne_pos _ (Real.sqrt_nonneg _)).le
      (pyOrOne_pos _ (Real.sqrt_nonneg _)).le)

theorem cosineSimilarity_le_one (a b : Vec) (ha : ∀ p ∈ a, 0 ≤ p.2)
    (hb : ∀ q ∈ b, 0 ≤ q.2) (hka : (alistKeys a).Nodup) :
    cosineSimilarity a b ≤ 1 := by
  unfold cosineSimilarity
  have hnum : 0 ≤ ((a.map fun p => p.2 * alistGetD b p.1 0).sum) :=
    cosine_num_nonneg a b ha hb
  have hsq := cosine_num_sq_le a b hka
  have hle1 : ((a.map fun p => p.2 * alistGetD b p.1 0).sum)
      ≤ Real.sqrt (((a.map fun p => p.2 ^ 2).sum) * ((b.map fun q => q.2 ^ 2).sum)) :=
    Real.le_sqrt_of_sq_le hsq
  have hmul : Real.sqrt (((a.map fun p => p.2 ^ 2).sum) * ((b.map fun q => q.2 ^ 2).sum))
      = Real.sqrt ((a.map fun p => p.2 ^ 2).sum)
        * Real.sqrt ((b.map fun q => q.2 ^ 2).sum) :=
    Real.sqrt_mul (alist_sumSq_nonneg a) _
  have hA : Real.sqrt ((a.map fun p => p.2 ^ 2).sum)
      ≤ pyOrOne (Real.sqrt ((a.map fun p => p.2 ^ 2).sum)) :=
    le_pyOrOne _ (Real.sqrt_nonneg _)
  have hB : Real.sqrt ((b.map fun q => q.2 ^ 2).sum)
      ≤ pyOrOne (Real.sqrt ((b.map fun q => q.2 ^ 2).sum)) :=
    le_pyOrOne _ (Real.sqrt_nonneg _)
  have hdenpos : 0 < pyOrOne (Real.sqrt ((a.map fun p => p.2 ^ 2).sum))
      * pyOrOne (Real.sqrt ((b.map fun q => q.2 ^ 2).sum)) :=
    mul_pos (pyOrOne_pos _ (Real.sqrt_nonneg _)) (pyOrOne_pos _ (Real.sqrt_nonneg _))
  rw [div_le_one hdenpos]
  calc ((a.map fun p => p.2 * alistGetD b p.1 0).sum)
      ≤ Real.sqrt ((a.map fun p => p.2 ^ 2).sum)
        * Real.sqrt ((b.map fun q => q.2 ^ 2).sum) := by rw [← hmul]; exact hle1
    _ ≤ pyOrOne (Real.sqrt ((a.map fun p => p.2 ^ 2).sum))
        * pyOrOne (Real.sqrt ((b.map fun q => q.2 ^ 2).sum)) :=
        mul_le_mul hA hB (Real.sqrt_nonneg _)
          (pyOrOne_pos _ (Real.sqrt_nonneg _)).le

theorem cosineSimilarity_eq_zero (a b : Vec)
    (h : ∀ p ∈ a, alistGetD b p.1 0 = 0) : cosineSimilarity a b = 0 := by
  unfold cosineSimilarity
  have hnum : ((a.map fun p => p.2 * alistGetD b p.1 0).sum) = 0 :=
    List.sum_eq_zero fun x hx => by
      rcases List.mem_map.mp hx with ⟨p, hp, hpx⟩
      rw [← hpx, h p hp, mul_zero]
  rw [hnum, zero_div]

theorem cosineSimilarity_pair_lt_one (t1 t2 t3 : String) (x y : ℝ) (b : Vec)
    (hx : 0 ≤ x) (hy : 0 ≤ y) (hb : ∀ q ∈ b, 0 ≤ q.2)
    (h12 : t1 ≠ t2) (h13 : t1 ≠ t3) (h23 : t2 ≠ t3)
    (hb3 : 0 < alistGetD b t3 0) :
    cosineSimilarity [(t1, x), (t2, y)] b < 1 := by
  unfold cosineSimilarity
  have hb1 : 0 ≤ alistGetD b t1 0 := alistGetD_nonneg b t1 hb
  have hb2 : 0 ≤ alistGetD b t2 0 := alistGetD_nonneg b t2 hb
  set b1 := alistGetD b t1 0 with hb1def
  set b2 := alistGetD b t2 0 with hb2def
  set b3 := alistGetD b t3 0 with hb3def
  have hnum : (([(t1, x), (t2, y)].map
      fun p => p.2 * alistGetD b p.1 0).sum) = x * b1 + y * b2 := by
    simp [hb1def, hb2def]
  have hSA : (([(t1, x), (t2, y)].map fun p => p.2 ^ 2).sum) = x ^ 2 + y ^ 2 := by
    simp
  have hsub : b1 ^ 2 + b2 ^ 2 + b3 ^ 2 ≤ ((b.map fun q => q.2 ^ 2).sum) := by
    have hnd : ([t1, t2, t3] : List String).Nodup := by
      simp [h12, h13, h23]
    have := subset_sumSq [t1, t2, t3] b hnd
    simpa [hb1def, hb2def, hb3def, add_assoc] using this
  set SB := ((b.map fun q => q.2 ^ 2).sum) with hSBdef
  have hSBpos : 0 < SB := lt_of_lt_of_le (by nlinarith) hsub
  rw [hnum, hSA]
  set dA := pyOrOne (Real.sqrt (x ^ 2 + y ^ 2)) with hdAdef
  set dB := pyOrOne (Real.sqrt SB) with hdBdef
  have hdApos : 0 < dA := pyOrOne_pos _ (Real.sqrt_nonneg _)
  have hdBpos : 0 < dB := pyOrOne_pos _ (Real.sqrt_nonneg _)
  rw [div_lt_one (mul_pos hdApos hdBpos)]
  by_cases hzero : x = 0 ∧ y = 0
  · rw [hzero.1, hzero.2]
    simpa using mul_pos hdApos hdBpos
  · have hSApos : 0 < x ^ 2 + y ^ 2 := by
      rcases (not_and_or.mp hzero) with h | h
      · have : 0 < x := lt_of_le_of_ne hx (Ne.symm h)
        nlinarith
      · have : 0 < y := lt_of_le_of_ne hy (Ne.symm h)
        nlinarith
    have hnum2 : (x * b1 + y * b2) ^ 2 ≤ (x ^ 2 + y ^ 2) * (b1 ^ 2 + b2 ^ 2) := by
      nlinarith [sq_nonneg (x * b2 - y * b1)]
    have hstrict : (x * b1 + y * b2) ^ 2 < (x ^ 2 + y ^ 2) * SB := by
      have h1 : (x ^ 2 + y ^ 2) * (b1 ^ 2 + b2 ^ 2)
          < (x ^ 2 + y ^ 2) * (b1 ^ 2 + b2 ^ 2 + b3 ^ 2) := by
        have : 0 < b3 ^ 2 := by positivity
        nlinarith
      have h2 : (x ^ 2 + y ^ 2) * (b1 ^ 2 + b2 ^ 2 + b3 ^ 2)
          ≤ (x ^ 2 + y ^ 2) * SB :=
        mul_le_mul_of_nonneg_left hsub (le_of_lt hSApos)
      linarith
    have hd2 : (x ^ 2 + y ^ 2) * SB ≤ (dA * dB) ^ 2 := by
      have hA2 : x ^ 2 + y ^ 2 ≤ dA ^ 2 := by
        have h1 : Real.sqrt (x ^ 2 + y ^ 2) ≤ dA := le_pyOrOne _ (Real.sqrt_nonneg _)
        have h2 : (Real.sqrt (x ^ 2 + y ^ 2)) ^ 2 = x ^ 2 + y ^ 2 :=
          Real.sq_sqrt hSApos.le
        nlinarith [Real.sqrt_nonneg (x ^ 2 + y ^ 2)]
      have hB2 : SB ≤ dB ^ 2 := by
        have h1 : Real.sqrt SB ≤ dB := le_pyOrOne _ (Real.sqrt_nonneg _)
        have h2 : (Real.sqrt SB) ^ 2 = SB := Real.sq_sqrt hSBpos.le
        nlinarith [Real.sqrt_nonneg SB]
      calc (x ^ 2 + y ^ 2) * SB ≤ dA ^ 2 * SB :=
            mul_le_mul_of_nonneg_right hA2 hSBpos.le
        _ ≤ dA ^ 2 * dB ^ 2 := by
            refine mul_le_mul_of_nonneg_left hB2 ?_
            positivity
        _ = (dA * dB) ^ 2 := by ring
    have hfin : (x * b1 + y * b2) ^ 2 < (dA * dB) ^ 2 :=
      lt_of_lt_of_le hstrict hd2
    exact lt_of_pow_lt_pow_left 2 (mul_pos hdApos hdBpos).le hfin

/-! ### The best-intent fold -/

theorem foldBest_lt_one (v : Vec) (l : List (String × Vec)) :
    ∀ (acc : Option String × ℝ), acc.2 < 1 →
    (∀ p ∈ l, cosineSimilarity v p.2 < 1) →
    (l.foldl (fun acc p =>
      if acc.2 < cosineSimilarity v p.2 then (some p.1, cosineSimilarity v p.2)
      else acc) acc).2 < 1 := by
  induction l with
  | nil => intro acc hacc _; simpa using hacc
  | cons p l' ih =>
    intro acc hacc h
    have hstep : (if acc.2 < cosineSimilarity v p.2
        then (some p.1, cosineSimilarity v p.2) else acc).2 < 1 := by
      by_cases hc : acc.2 < cosineSimilarity v p.2
      · simpa [hc] using h p (by simp)
      · simpa [hc] using hacc
    exact ih _ hstep fun q hq => h q (by simp [hq])

theorem foldBest_bounds (v : Vec) (l : List (String × Vec)) :
    ∀ (acc : Option String × ℝ), 0 ≤ acc.2 → acc.2 ≤ 1 →
    (∀ p ∈ l, cosineSimilarity v p.2 ≤ 1) →
    0 ≤ (l.foldl (fun acc p =>
        if acc.2 < cosineSimilarity v p.2 then (some p.1, cosineSimilarity v p.2)
        else acc) acc).2
    ∧ (l.foldl (fun acc p =>
        if acc.2 < cosineSimilarity v p.2 then (some p.1, cosineSimilarity v p.2)
        else acc) acc).2 ≤ 1 := by
  induction l with
  | nil => intro acc h0 h1 _; constructor <;> simpa
  | cons p l' ih =>
    intro acc h0 h1 h
    have hstep0 : 0 ≤ (if acc.2 < cosineSimilarity v p.2
        then (some p.1, cosineSimilarity v p.2) else acc).2 := by
      by_cases hc : acc.2 < cosineSimilarity v p.2
      · simpa [hc] using le_of_lt (lt_of_le_of_lt h0 hc)
      · simpa [hc] using h0
    have hstep1 : (if acc.2 < cosineSimilarity v p.2
        then (some p.1, cosineSimilarity v p.2) else acc).2 ≤ 1 := by
      by_cases hc : acc.2 < cosineSimilarity v p.2
      · simpa [hc] using h p (by simp)
      · simpa [hc] using h1
    exact ih _ hstep0 hstep1 fun q hq => h q (by simp [hq])

/-! ### Query vector facts -/

theorem filterMapIf_keys_sublist (tf : List (String × ℕ)) (cond : String → Bool)
    (wf : String × ℕ → ℝ) :
    List.Sublist
      (alistKeys (tf.filterMap fun p =>
        if cond p.1 then some (p.1, wf p) else none))
      (alistKeys tf) := by
  induction tf with
  | nil => simp [alistKeys]
  | cons p tf' ih =>
    by_cases hc : cond p.1
    · rw [show (p :: tf').filterMap (fun p =>
          if cond p.1 then some (p.1, wf p) else none)
          = (p.1, wf p) :: tf'.filterMap (fun p =>
            if cond p.1 then some (p.1, wf p) else none) by
        simp [List.filterMap_cons, hc]]
      exact List.Sublist.cons₂ p.1 ih
    · rw [show (p :: tf').filterMap (fun p =>
          if cond p.1 then some (p.1, wf p) else none)
          = tf'.filterMap (fun p =>
            if cond p.1 then some (p.1, wf p) else none) by
        simp [List.filterMap_cons, hc]]
      exact List.Sublist.cons p.1 ih

theorem queryVec_keys_nodup (intents : IntentSet) (text : String) :
    (alistKeys (queryVec intents text)).Nodup := by
  unfold queryVec
  rw [alistKeys_map_snd]
  exact List.Nodup.sublist
    (filterMapIf_keys_sublist (counter (tokenize text)) (inVocab intents)
      (fun p => (p.2 : ℝ) * idfVal intents p.1))
    (nodup_keys_counter (tokenize text))

theorem queryVec_vals_nonneg (intents : IntentSet) (text : String) :
    ∀ p ∈ queryVec intents text, 0 ≤ p.2 := by
  unfold queryVec
  intro p hp
  rcases List.mem_map.mp hp with ⟨q, hq, hqe⟩
  rcases List.mem_filterMap.mp hq with ⟨r, _, hr⟩
  by_cases hc : inVocab intents r.1
  · rw [if_pos hc] at hr
    have hq2 : q.2 = (r.2 : ℝ) * idfVal intents r.1 := by
      cases hr
      rfl
    rw [← hqe]
    simp only
    refine div_nonneg ?_ (pyOrOne_pos _ (Real.sqrt_nonneg _)).le
    rw [hq2]
    exact mul_nonneg (Nat.cast_nonneg _) (idfVal_pos intents r.1).le
  · rw [if_neg hc] at hr
    cases hr

/-! ### Classify helpers -/

theorem classify_score_eq (intents : IntentSet) (text : String) (thr : ℝ)
    (h : (tokenize text).isEmpty = false) :
    (classify intents text thr).score
      = ((fitCentroids intents).foldl
          (fun acc p =>
            if acc.2 < cosineSimilarity (queryVec intents text) p.2
            then (some p.1, cosineSimilarity (queryVec intents text) p.2)
            else acc)
          ((none : Option String), (0 : ℝ))).2 := by
  simp only [classify, h, Bool.false_eq_true, if_false]
  split <;> rfl

theorem classify_score_bounds (intents : IntentSet) (text : String) (thr : ℝ) :
    0 ≤ (classify intents text thr).score
    ∧ (classify intents text thr).score ≤ 1 := by
  by_cases htok : (tokenize text).isEmpty = true
  · have hres : classify intents text thr = ⟨none, 0⟩ := by
      unfold classify
      rw [if_pos htok]
    rw [hres]
    exact ⟨le_refl 0, zero_le_one⟩
  · have htok' : (tokenize text).isEmpty = false := by
      simpa using htok
    rw [classify_score_eq intents text thr htok']
    refine foldBest_bounds _ _ _ le_rfl zero_le_one ?_
    intro p hp
    exact cosineSimilarity_le_one _ _ (queryVec_vals_nonneg intents text)
      ((fitCentroids_mem intents p hp).1) (queryVec_keys_nodup intents text)

/-! ### Per-document contribution bounds -/

theorem docContrib_eq_zero (intents : IntentSet) (tokens : List String)
    (t : String) (h : t ∉ tokens) : docContrib intents tokens t = 0 := by
  have hcount : tokens.count t = 0 := List.count_eq_zero.mpr h
  simp [docContrib, hcount]

/-- The sum of squared tf-idf weights of one document, the quantity whose
square root the code takes as the document norm (used only in proofs). -/
noncomputable def docSumSq (intents : IntentSet) (tokens : List String) : ℝ :=
  ((counter tokens).map fun p => ((p.2 : ℝ) * idfVal intents p.1) ^ 2).sum

theorem docSumSq_pos (intents : IntentSet) (tokens : List String)
    (h : tokens ≠ []) : 0 < docSumSq intents tokens := by
  obtain ⟨t0, ht0⟩ : ∃ t0, t0 ∈ tokens := by
    cases tokens with
    | nil => exact absurd rfl h
    | cons a l => exact ⟨a, by simp⟩
  have hk : t0 ∈ alistKeys (counter tokens) := (mem_keys_counter tokens t0).mpr ht0
  rcases List.mem_map.mp hk with ⟨p, hp, hpe⟩
  have hval : p.2 = tokens.count t0 := by
    have h1 := alist_mem_getD (counter tokens) p 0 (nodup_keys_counter tokens) hp
    rw [hpe] at h1
    rw [← h1]
    exact counter_getD tokens t0
  have hcpos : 0 < tokens.count t0 := List.count_pos_iff.mpr ht0
  unfold docSumSq
  refine list_sum_pos_mem _ _ (fun x _ => sq_nonneg _) p hp ?_
  have hp2 : 0 < (p.2 : ℝ) := by
    rw [hval]
    exact_mod_cast hcpos
  exact pow_pos (mul_pos hp2 (idfVal_pos intents p.1)) 2

theorem docNorm_eq_sqrt (intents : IntentSet) (tokens : List String)
    (h : tokens ≠ []) :
    docNorm intents tokens = Real.sqrt (docSumSq intents tokens) := by
  unfold docNorm
  exact pyOrOne_of_pos _ (Real.sqrt_pos.mpr (docSumSq_pos intents tokens h))

theorem docNorm_sq (intents : IntentSet) (tokens : List String)
    (h : tokens ≠ []) :
    (docNorm intents tokens) ^ 2 = docSumSq intents tokens := by
  rw [docNorm_eq_sqrt intents tokens h]
  exact Real.sq_sqrt (le_of_lt (docSumSq_pos intents tokens h))

/-- The normalized tf-idf weights of one nonempty document have a sum of
squares of at most 1 over any set of distinct tokens. -/
theorem docContrib_sumSq_le_one (intents : IntentSet) (tokens : List String)
    (h : tokens ≠ []) (K : List String) (hK : K.Nodup) :
    ((K.map fun t => (docContrib intents tokens t) ^ 2)).sum ≤ 1 := by
  have hS : 0 < docSumSq intents tokens := docSumSq_pos intents tokens h
  have hNsq : (docNorm intents tokens) ^ 2 = docSumSq intents tokens :=
    docNorm_sq intents tokens h
  have hsub := subset_sumF
    (fun (k : String) (c : ℕ) =>
      (((c : ℝ) * idfVal intents k) / docNorm intents tokens) ^ 2)
    (0 : ℕ) (fun k => by simp) (fun k c => sq_nonneg _)
    K (counter tokens) hK
  have hL : (K.map fun t => (docContrib intents tokens t) ^ 2)
      = K.map fun t =>
          (((alistGetD (counter tokens) t 0 : ℕ) : ℝ) * idfVal intents t
            / docNorm intents tokens) ^ 2 := by
    refine List.map_congr_left fun t _ => ?_
    rw [counter_getD]
    rfl
  rw [hL]
  refine le_trans hsub ?_
  have hR : ((counter tokens).map fun q =>
        (((q.2 : ℝ) * idfVal intents q.1) / docNorm intents tokens) ^ 2).sum
      = docSumSq intents tokens / (docNorm intents tokens) ^ 2 := by
    rw [list_sum_map_div_sq]
    rfl
  rw [hR, hNsq, div_self (ne_of_gt hS)]

/-- Over a document list in which every token of `K` occurs in at most two
documents, the sum over `K` of the squared per-token contribution totals is
at most twice the number of documents. -/
theorem labelSumSq_bound (intents : IntentSet) (D : List (List String))
    (K : List String) (hK : K.Nodup)
    (hne : ∀ ts ∈ D, ts ≠ [])
    (hmult : ∀ t ∈ K, ((D.filter fun ts => decide (t ∈ ts)).length ≤ 2)) :
    ((K.map fun t => ((D.map fun ts => docContrib intents ts t).sum) ^ 2).sum)
      ≤ 2 * (D.length : ℝ) := by
  have hpt : ∀ t ∈ K,
      ((D.map fun ts => docContrib intents ts t).sum) ^ 2
        ≤ 2 * ((D.map fun ts => (docContrib intents ts t) ^ 2).sum) := by
    intro t ht
    have hlen : (((D.map fun ts => docContrib intents ts t).filter
        fun x => decide (x ≠ 0)).length) ≤ 2 := by
      rw [List.filter_map, List.length_map]
      have h1 : (D.filter ((fun x => decide (x ≠ 0))
            ∘ fun ts => docContrib intents ts t)).length
          ≤ (D.filter fun ts => decide (t ∈ ts)).length := by
        rw [← List.countP_eq_length_filter, ← List.countP_eq_length_filter]
        refine List.countP_mono_left ?_
        intro ts _ hts
        simp only [Function.comp_apply, ne_eq, decide_eq_true_eq] at hts
        simp only [decide_eq_true_eq]
        by_contra hmem
        exact hts (docContrib_eq_zero intents ts t hmem)
      exact le_trans h1 (hmult t ht)
    have hsq := sum_sq_le_two_mul (D.map fun ts => docContrib intents ts t) hlen
    calc ((D.map fun ts => docContrib intents ts t).sum) ^ 2
        ≤ 2 * (((D.map fun ts => docContrib intents ts t).map
            fun x => x ^ 2).sum) := hsq
      _ = 2 * ((D.map fun ts => (docContrib intents ts t) ^ 2).sum) := by
          rw [List.map_map]
          rfl
  calc ((K.map fun t => ((D.map fun ts => docContrib intents ts t).sum) ^ 2).sum)
      ≤ ((K.map fun t =>
          2 * ((D.map fun ts => (docContrib intents ts t) ^ 2).sum)).sum) :=
        List.sum_le_sum hpt
    _ = 2 * ((K.map fun t =>
          ((D.map fun ts => (docContrib intents ts t) ^ 2).sum)).sum) :=
        list_sum_map_mul_c K _ 2
    _ = 2 * ((D.map fun ts => ((K.map fun t =>
          (docContrib intents ts t) ^ 2).sum)).sum) := by
        rw [list_sum_swap K D (fun t ts => (docContrib intents ts t) ^ 2)]
    _ ≤ 2 * ((D.map fun ts => (1 : ℝ)).sum) := by
        have hb : ∀ ts ∈ D, ((K.map fun t => (docContrib intents ts t) ^ 2).sum)
            ≤ (1 : ℝ) := fun ts hts =>
          docContrib_sumSq_le_one intents ts (hne ts hts) K hK
        have h2 := List.sum_le_sum hb
        linarith
    _ = 2 * (D.length : ℝ) := by
        rw [List.map_const', List.sum_replicate, nsmul_eq_mul, mul_one]

/-! ### Evaluating the best-intent fold -/

theorem foldBest_const (v : Vec) (l : List (String × Vec)) :
    ∀ (acc : Option String × ℝ), 0 ≤ acc.2 →
    (∀ p ∈ l, cosineSimilarity v p.2 = 0) →
    (l.foldl (fun acc p =>
      if acc.2 < cosineSimilarity v p.2 then (some p.1, cosineSimilarity v p.2)
      else acc) acc) = acc := by
  induction l with
  | nil => intro acc _ _; rfl
  | cons p l' ih =>
    intro acc hacc h
    have hp := h p (by simp)
    simp only [List.foldl_cons]
    rw [hp, if_neg (not_lt.mpr hacc)]
    exact ih acc hacc fun q hq => h q (by simp [hq])

/-- When exactly one centroid has a positive cosine with the query and the
labels are distinct, the fold selects that centroid's label and score. -/
theorem foldBest_unique (v : Vec) (k0 : String) (w : Vec) :
    ∀ (l : List (String × Vec)) (acc : Option String × ℝ),
    acc.2 = 0 → (alistKeys l).Nodup → (k0, w) ∈ l →
    0 < cosineSimilarity v w →
    (∀ p ∈ l, p.1 ≠ k0 → cosineSimilarity v p.2 = 0) →
    (l.foldl (fun acc p =>
      if acc.2 < cosineSimilarity v p.2 then (some p.1, cosineSimilarity v p.2)
      else acc) acc)
      = (some k0, cosineSimilarity v w) := by
  intro l
  induction l with
  | nil => intro acc _ _ hmem; cases hmem
  | cons p l' ih =>
    intro acc hacc hnd hmem hw hz
    have hndtail : (alistKeys l').Nodup := by
      rw [alistKeys, List.map_cons] at hnd
      exact (List.nodup_cons.mp hnd).2
    have hhead : p.1 ∉ alistKeys l' := by
      rw [alistKeys, List.map_cons] at hnd
      exact (List.nodup_cons.mp hnd).1
    by_cases hk : p.1 = k0
    · have hpw : p = (k0, w) := by
        rcases List.mem_cons.mp hmem with h | h
        · exact h.symm
        · exfalso
          have hin : k0 ∈ alistKeys l' := by
            have := List.mem_map_of_mem Prod.fst h
            simpa [alistKeys] using this
          exact hhead (hk ▸ hin)
      subst hpw
      simp only [List.foldl_cons]
      rw [hacc, if_pos hw]
      refine foldBest_const v l' _ hw.le ?_
      intro q hq
      refine hz q (by simp [hq]) ?_
      intro hq0
      have hin : k0 ∈ alistKeys l' := by
        have := List.mem_map_of_mem Prod.fst hq
        simpa [alistKeys, hq0] using this
      exact hhead (hk ▸ hin)
    · have hmem' : (k0, w) ∈ l' := by
        rcases List.mem_cons.mp hmem with h | h
        · exact absurd (congrArg Prod.fst h.symm) hk
        · exact h
      simp only [List.foldl_cons]
      rw [hz p (by simp) hk, hacc, if_neg (lt_irrefl 0)]
      exact ih acc hacc hndtail hmem' hw fun q hq => hz q (by simp [hq])

/-! ### The default classifier on the query "chip strategy" -/

theorem queryVec_chip_shape :
    ∃ x y : ℝ, queryVec defaultIntents "chip strategy"
      = [("chip", x), ("strategy", y)] := by
  have htok : tokenize "chip strategy" = ["chip", "strategy"] := by decide
  have hcnt : counter ["chip", "strategy"] = [("chip", 1), ("strategy", 1)] := by
    decide
  have hv1 : inVocab defaultIntents "chip" = true := by decide
  have hv2 : inVocab defaultIntents "strategy" = true := by decide
  unfold queryVec
  rw [htok, hcnt]
  simp only [List.filterMap_cons, List.filterMap_nil, hv1, hv2, if_true,
    List.map_cons, List.map_nil]
  exact ⟨_, _, rfl⟩

/-- The terms of the "chip-advice" centroid, in accumulation order. -/
def chipKeys : List String :=
  ["when", "should", "i", "use", "my", "chips", "chip", "strategy",
   "bench", "boost", "or", "triple", "captain", "free", "hit",
   "wildcard", "advice"]

/-- The token lists of the five "chip-advice" example documents. -/
def chipTokenLists : List (List String) :=
  [["when", "should", "i", "use", "my", "chips"],
   ["chip", "strategy"],
   ["bench", "boost", "or", "triple", "captain"],
   ["should", "i", "free", "hit"],
   ["wildcard", "advice"]]

/-- The fitted centroid of the intent "chip-advice". -/
noncomputable def chipCentroid : Vec :=
  alistGetD (fitCentroids defaultIntents) "chip-advice" []

theorem chipCentroid_keys : alistKeys chipCentroid = chipKeys := by rfl

theorem fitCentroids_labels :
    (fitCentroids defaultIntents).map Prod.fst
      = ["my-team-summary", "ai-team-performance", "smart-captaincy",
         "current-captain", "chip-advice", "transfer-suggester", "injury-risk",
         "ai-predictions", "league-head-to-head", "league-current",
         "league-predictions", "differential-hunter",
         "predicted-top-performers", "dream-team", "quadrant-analysis"] := by rfl

theorem fitCentroids_keys_nodup :
    (alistKeys (fitCentroids defaultIntents)).Nodup := by
  rw [show alistKeys (fitCentroids defaultIntents)
      = (fitCentroids defaultIntents).map Prod.fst from rfl, fitCentroids_labels]
  decide

theorem chip_mem_fitCentroids :
    ("chip-advice", chipCentroid) ∈ fitCentroids defaultIntents := by
  refine alist_getD_mem (fitCentroids defaultIntents) "chip-advice" [] ?_
  rw [show alistKeys (fitCentroids defaultIntents)
      = (fitCentroids defaultIntents).map Prod.fst from rfl, fitCentroids_labels]
  decide

theorem chipDocs_filter :
    (fitDocs defaultIntents).filter (fun d => decide (d.2 = "chip-advice"))
      = chipTokenLists.map fun ts => (ts, "chip-advice") := by decide

theorem chip_labelCount : labelCount (fitDocs defaultIntents) "chip-advice" = 5 := by
  decide

theorem chip_labelSum (t : String) :
    labelSum defaultIntents (fitDocs defaultIntents) "chip-advice" t
      = ((chipTokenLists.map fun ts => docContrib defaultIntents ts t).sum) := by
  unfold labelSum
  rw [chipDocs_filter, List.map_map]
  rfl

theorem chip_centroidVal (t : String) :
    centroidVal defaultIntents "chip-advice" t
      = ((chipTokenLists.map fun ts => docContrib defaultIntents ts t).sum) / 5 := by
  rw [centroidVal_eq, chip_labelSum, chip_labelCount]
  norm_num

theorem chipCentroid_getD (t : String) :
    alistGetD chipCentroid t 0 = centroidVal defaultIntents "chip-advice" t := rfl

theorem chip_idf_eq :
    idfVal defaultIntents "strategy" = idfVal defaultIntents "chip" := by
  unfold idfVal
  rw [show docFreq defaultIntents "strategy" = 1 from by decide,
    show docFreq defaultIntents "chip" = 1 from by decide]

theorem chip_doc2_sumSq :
    docSumSq defaultIntents ["chip", "strategy"]
      = 2 * (idfVal defaultIntents "chip") ^ 2 := by
  unfold docSumSq
  rw [show counter ["chip", "strategy"] = [("chip", 1), ("strategy", 1)] from by
    decide]
  simp only [List.map_cons, List.map_nil, List.sum_cons, List.sum_nil]
  rw [chip_idf_eq]
  push_cast
  ring

theorem chip_doc2_norm :
    docNorm defaultIntents ["chip", "strategy"]
      = idfVal defaultIntents "chip" * Real.sqrt 2 := by
  rw [docNorm_eq_sqrt defaultIntents ["chip", "strategy"] (by decide),
    chip_doc2_sumSq,
    show (2 : ℝ) * (idfVal defaultIntents "chip") ^ 2
      = (idfVal defaultIntents "chip") ^ 2 * 2 from by ring,
    Real.sqrt_mul (sq_nonneg _) 2,
    Real.sqrt_sq (idfVal_pos defaultIntents "chip").le]

theorem chip_doc2_contrib_chip :
    docContrib defaultIntents ["chip", "strategy"] "chip" = (Real.sqrt 2)⁻¹ := by
  unfold docContrib
  rw [show (["chip", "strategy"].count "chip") = 1 from by decide,
    Nat.cast_one, one_mul, chip_doc2_norm, div_mul_eq_div_div,
    div_self (ne_of_gt (idfVal_pos defaultIntents "chip")), one_div]

theorem chip_doc2_contrib_strategy :
    docContrib defaultIntents ["chip", "strategy"] "strategy"
      = (Real.sqrt 2)⁻¹ := by
  unfold docContrib
  rw [show (["chip", "strategy"].count "strategy") = 1 from by decide,
    Nat.cast_one, one_mul, chip_idf_eq, chip_doc2_norm, div_mul_eq_div_div,
    div_self (ne_of_gt (idfVal_pos defaultIntents "chip")), one_div]

theorem chipCentroid_chip_val :
    alistGetD chipCentroid "chip" 0 = (Real.sqrt 2)⁻¹ / 5 := by
  rw [chipCentroid_getD, chip_centroidVal]
  have hsum : ((chipTokenLists.map
      fun ts => docContrib defaultIntents ts "chip").sum) = (Real.sqrt 2)⁻¹ := by
    simp only [chipTokenLists, List.map_cons, List.map_nil, List.sum_cons,
      List.sum_nil]
    rw [chip_doc2_contrib_chip,
      docContrib_eq_zero defaultIntents
        ["when", "should", "i", "use", "my", "chips"] "chip" (by decide),
      docContrib_eq_zero defaultIntents
        ["bench", "boost", "or", "triple", "captain"] "chip" (by decide),
      docContrib_eq_zero defaultIntents
        ["should", "i", "free", "hit"] "chip" (by decide),
      docContrib_eq_zero defaultIntents
        ["wildcard", "advice"] "chip" (by decide)]
    ring
  rw [hsum]

theorem chipCentroid_strategy_val :
    alistGetD chipCentroid "strategy" 0 = (Real.sqrt 2)⁻¹ / 5 := by
  rw [chipCentroid_getD, chip_centroidVal]
  have hsum : ((chipTokenLists.map
      fun ts => docContrib defaultIntents ts "strategy").sum)
      = (Real.sqrt 2)⁻¹ := by
    simp only [chipTokenLists, List.map_cons, List.map_nil, List.sum_cons,
      List.sum_nil]
    rw [chip_doc2_contrib_strategy,
      docContrib_eq_zero defaultIntents
        ["when", "should", "i", "use", "my", "chips"] "strategy" (by decide),
      docContrib_eq_zero defaultIntents
        ["bench", "boost", "or", "triple", "captain"] "strategy" (by decide),
      docContrib_eq_zero defaultIntents
        ["should", "i", "free", "hit"] "strategy" (by decide),
      docContrib_eq_zero defaultIntents
        ["wildcard", "advice"] "strategy" (by decide)]
    ring
  rw [hsum]

/-- The squared norm of the "chip-advice" centroid is at most 2/5: every
token occurs in at most two of the five documents and each document
contributes a unit-normalized vector divided by 5. -/
theorem chipCentroid_sumSq_le :
    ((chipCentroid.map fun q => q.2 ^ 2).sum) ≤ 2 / 5 := by
  have hnodup : (alistKeys chipCentroid).Nodup := by
    rw [chipCentroid_keys]
    decide
  have hpt : ∀ q ∈ chipCentroid,
      q.2 = centroidVal defaultIntents "chip-advice" q.1 := by
    intro q hq
    have h1 := alist_mem_getD chipCentroid q 0 hnodup hq
    rw [chipCentroid_getD q.1] at h1
    exact h1.symm
  have e1 : (chipCentroid.map fun q => q.2 ^ 2)
      = chipCentroid.map
          fun q => (centroidVal defaultIntents "chip-advice" q.1) ^ 2 :=
    List.map_congr_left fun q hq => by rw [hpt q hq]
  have e2 : (chipCentroid.map
        fun q => (centroidVal defaultIntents "chip-advice" q.1) ^ 2)
      = chipKeys.map fun t => (centroidVal defaultIntents "chip-advice" t) ^ 2 := by
    rw [← chipCentroid_keys]
    simp [alistKeys, List.map_map, Function.comp_def]
  have e3 : (chipKeys.map
        fun t => (centroidVal defaultIntents "chip-advice" t) ^ 2)
      = chipKeys.map fun t =>
          (((chipTokenLists.map
            fun ts => docContrib defaultIntents ts t).sum) / 5) ^ 2 :=
    List.map_congr_left fun t _ => by rw [chip_centroidVal]
  rw [e1, e2, e3, list_sum_map_div_sq]
  have hb := labelSumSq_bound defaultIntents chipTokenLists chipKeys
    (by decide) (by decide) (by decide)
  rw [show (chipTokenLists.length : ℝ) = 5 from by
    rw [show chipTokenLists.length = 5 from rfl]; norm_num] at hb
  rw [show ((5 : ℝ) ^ 2) = 25 from by norm_num]
  linarith

theorem chipCentroid_sumSq_pos :
    0 < ((chipCentroid.map fun q => q.2 ^ 2).sum) := by
  have hsub := subset_sumSq ["chip"] chipCentroid (by decide)
  have hpos : 0 < ((Real.sqrt 2)⁻¹ / 5 : ℝ) :=
    div_pos (inv_pos.mpr (Real.sqrt_pos.mpr (by norm_num))) (by norm_num)
  calc (0 : ℝ) < ((Real.sqrt 2)⁻¹ / 5) ^ 2 := pow_pos hpos 2
    _ ≤ ((chipCentroid.map fun q => q.2 ^ 2).sum) := by
        have h2 : ((["chip"].map
            fun k => (alistGetD chipCentroid k 0) ^ 2).sum)
            = ((Real.sqrt 2)⁻¹ / 5) ^ 2 := by
          simp only [List.map_cons, List.map_nil, List.sum_cons, List.sum_nil,
            chipCentroid_chip_val]
          ring
        rw [← h2]
        exact hsub

/-- The query vector of "chip strategy" evaluates to two equal weights of
1 over the square root of 2. -/
theorem queryVec_chip_eval :
    queryVec defaultIntents "chip strategy"
      = [("chip", (Real.sqrt 2)⁻¹), ("strategy", (Real.sqrt 2)⁻¹)] := by
  have htok : tokenize "chip strategy" = ["chip", "strategy"] := by decide
  have hcnt : counter ["chip", "strategy"] = [("chip", 1), ("strategy", 1)] := by
    decide
  have hv1 : inVocab defaultIntents "chip" = true := by decide
  have hv2 : inVocab defaultIntents "strategy" = true := by decide
  have hIpos := idfVal_pos defaultIntents "chip"
  unfold queryVec
  rw [htok, hcnt]
  simp only [List.filterMap_cons, List.filterMap_nil, hv1, hv2, if_true,
    List.map_cons, List.map_nil, List.sum_cons, List.sum_nil, Nat.cast_one,
    one_mul, add_zero, chip_idf_eq]
  rw [show (idfVal defaultIntents "chip") ^ 2 + (idfVal defaultIntents "chip") ^ 2
      = (idfVal defaultIntents "chip") ^ 2 * 2 from by ring,
    Real.sqrt_mul (sq_nonneg _) 2, Real.sqrt_sq hIpos.le,
    pyOrOne_of_pos _ (mul_pos hIpos (Real.sqrt_pos.mpr (by norm_num))),
    div_mul_eq_div_div, div_self (ne_of_gt hIpos), one_div]

/-- The cosine of the "chip strategy" query with the "chip-advice"
centroid is one fifth over the centroid norm. -/
theorem chip_cosine_eval :
    cosineSimilarity (queryVec defaultIntents "chip strategy") chipCentroid
      = (1 / 5) / Real.sqrt ((chipCentroid.map fun q => q.2 ^ 2).sum) := by
  rw [queryVec_chip_eval]
  unfold cosineSimilarity
  simp only [List.map_cons, List.map_nil, List.sum_cons, List.sum_nil, add_zero]
  rw [chipCentroid_chip_val, chipCentroid_strategy_val]
  have hxx : (Real.sqrt 2)⁻¹ * ((Real.sqrt 2)⁻¹ / 5) = 1 / 10 := by
    rw [show (Real.sqrt 2)⁻¹ * ((Real.sqrt 2)⁻¹ / 5)
        = ((Real.sqrt 2) * (Real.sqrt 2))⁻¹ / 5 from by rw [mul_inv]; ring,
      Real.mul_self_sqrt (by norm_num : (0 : ℝ) ≤ 2)]
    norm_num
  have hq2 : ((Real.sqrt 2)⁻¹) ^ 2 + ((Real.sqrt 2)⁻¹) ^ 2 = 1 := by
    rw [inv_pow, Real.sq_sqrt (by norm_num : (0 : ℝ) ≤ 2)]
    norm_num
  rw [hxx, hq2, Real.sqrt_one, pyOrOne_of_pos 1 one_pos,
    pyOrOne_of_pos _ (Real.sqrt_pos.mpr chipCentroid_sumSq_pos), one_mul]
  norm_num

/-- The score of "chip strategy" against the "chip-advice" centroid clears
the default 0.3 threshold. -/
theorem chip_cosine_ge :
    3 / 10 ≤ cosineSimilarity (queryVec defaultIntents "chip strategy")
      chipCentroid := by
  rw [chip_cosine_eval]
  have hTpos : 0 < ((chipCentroid.map fun q => q.2 ^ 2).sum) :=
    chipCentroid_sumSq_pos
  have hTle : ((chipCentroid.map fun q => q.2 ^ 2).sum) ≤ 2 / 5 :=
    chipCentroid_sumSq_le
  have hsqrtpos : 0 < Real.sqrt ((chipCentroid.map fun q => q.2 ^ 2).sum) :=
    Real.sqrt_pos.mpr hTpos
  have hsqrtle : Real.sqrt ((chipCentroid.map fun q => q.2 ^ 2).sum) ≤ 2 / 3 := by
    rw [show (2 : ℝ) / 3 = Real.sqrt ((2 / 3) ^ 2) from
      (Real.sqrt_sq (by norm_num)).symm]
    exact Real.sqrt_le_sqrt (by nlinarith)
  calc (3 : ℝ) / 10 = (1 / 5) / (2 / 3) := by norm_num
    _ ≤ (1 / 5) / Real.sqrt ((chipCentroid.map fun q => q.2 ^ 2).sum) := by
        rw [div_le_div_iff (by norm_num) hsqrtpos]
        linarith

/-- Against every centroid other than "chip-advice" the query
"chip strategy" has cosine 0: no other intent's examples contain either
token. -/
theorem chipStrategy_centroid_zero (p : String × Vec)
    (hp : p ∈ fitCentroids defaultIntents) (hchip : p.1 ≠ "chip-advice") :
    cosineSimilarity (queryVec defaultIntents "chip strategy") p.2 = 0 := by
  obtain ⟨x, y, hshape⟩ := queryVec_chip_shape
  obtain ⟨hbvals, hbgetD, hblab⟩ := fitCentroids_mem defaultIntents p hp
  apply cosineSimilarity_eq_zero
  intro q hq
  rw [hshape] at hq
  have hq' : q = ("chip", x) ∨ q = ("strategy", y) := by simpa using hq
  have hdec : ∀ lab ∈ (fitDocs defaultIntents).map Prod.snd,
      lab ≠ "chip-advice" →
      ∀ d ∈ fitDocs defaultIntents, d.2 = lab →
        ("chip" ∉ d.1 ∧ "strategy" ∉ d.1) := by decide
  have hnotin := hdec p.1 hblab hchip
  rcases hq' with hq' | hq'
  · subst hq'
    rw [show (("chip", x) : String × ℝ).1 = "chip" from rfl, hbgetD "chip"]
    exact centroidVal_zero defaultIntents p.1 "chip"
      (fun d hd hl => (hnotin d hd hl).1)
  · subst hq'
    rw [show (("strategy", y) : String × ℝ).1 = "strategy" from rfl,
      hbgetD "strategy"]
    exact centroidVal_zero defaultIntents p.1 "strategy"
      (fun d hd hl => (hnotin d hd hl).2)

theorem chipStrategy_centroid_lt (p : String × Vec)
    (hp : p ∈ fitCentroids defaultIntents) :
    cosineSimilarity (queryVec defaultIntents "chip strategy") p.2 < 1 := by
  obtain ⟨x, y, hshape⟩ := queryVec_chip_shape
  have ha := queryVec_vals_nonneg defaultIntents "chip strategy"
  have hx : 0 ≤ x := by
    have := ha ("chip", x) (by rw [hshape]; simp)
    simpa using this
  have hy : 0 ≤ y := by
    have := ha ("strategy", y) (by rw [hshape]; simp)
    simpa using this
  obtain ⟨hbvals, hbgetD, hblab⟩ := fitCentroids_mem defaultIntents p hp
  by_cases hchip : p.1 = "chip-advice"
  · rw [hshape]
    refine cosineSimilarity_pair_lt_one "chip" "strategy" "wildcard" x y p.2
      hx hy hbvals (by decide) (by decide) (by decide) ?_
    rw [hbgetD "wildcard", hchip]
    refine centroidVal_pos defaultIntents "chip-advice" "wildcard" ?_
    exact ⟨(["wildcard", "advice"], "chip-advice"), by decide, rfl, by decide⟩
  · rw [chipStrategy_centroid_zero p hp hchip]
    exact zero_lt_one

theorem chipStrategy_score_lt_one :
    (classify defaultIntents "chip strategy" (3 / 10)).score < 1 := by
  rw [classify_score_eq defaultIntents "chip strategy" (3 / 10) (by decide)]
  exact foldBest_lt_one (queryVec defaultIntents "chip strategy")
    (fitCentroids defaultIntents) (none, 0) (by norm_num)
    chipStrategy_centroid_lt

/-- classify on "chip strategy" at the default threshold evaluates to the
intent "chip-advice" with the cosine of the query against that intent's
centroid as its score. -/
theorem chipStrategy_classify_eval :
    classify defaultIntents "chip strategy" (3 / 10)
      = ⟨some "chip-advice",
          cosineSimilarity (queryVec defaultIntents "chip strategy")
            chipCentroid⟩ := by
  have h : (tokenize "chip strategy").isEmpty = false := by decide
  have hfold := foldBest_unique (queryVec defaultIntents "chip strategy")
    "chip-advice" chipCentroid (fitCentroids defaultIntents)
    ((none : Option String), (0 : ℝ)) rfl fitCentroids_keys_nodup
    chip_mem_fitCentroids
    (lt_of_lt_of_le (by norm_num) chip_cosine_ge)
    (fun p hp hne => chipStrategy_centroid_zero p hp hne)
  simp only [classify, h, Bool.false_eq_true, if_false]
  rw [hfold, if_pos chip_cosine_ge]

/-! ### Claim theorems about src/intent_classifier.py -/

/-- C2 counterexample: the query "chip strategy" is literally one of the
example phrases of the intent "chip-advice" in the fixed default example
set, yet classify (at its default threshold 0.3) does not return
similarity 1.0 for it — the centroid is the average of five non-parallel
normalized example vectors, so the cosine of one member phrase against it
is strictly below 1. -/
theorem c2_counterexample :
    (IntentClassifier.classify IntentClassifier.defaultIntents
      "chip strategy" (3 / 10)).score ≠ 1 :=
  ne_of_lt chipStrategy_score_lt_one

/-- C2 amended: for the classifier built from the fixed default example
set, the query "chip strategy" — literally one of the example phrases of
the intent "chip-advice" — is still classified to that intent, with a
similarity score at least the default 0.3 threshold; but the score is
strictly below 1 rather than exactly 1.0, and every query's score lies in
the closed interval [0, 1]. -/
theorem c2_amended_example_phrase_score :
    (IntentClassifier.classify IntentClassifier.defaultIntents
        "chip strategy" (3 / 10)).intent = some "chip-advice"
    ∧ 3 / 10 ≤ (IntentClassifier.classify IntentClassifier.defaultIntents
        "chip strategy" (3 / 10)).score
    ∧ (IntentClassifier.classify IntentClassifier.defaultIntents
        "chip strategy" (3 / 10)).score < 1
    ∧ (∀ (text : String) (thr : ℝ),
        0 ≤ (IntentClassifier.classify IntentClassifier.defaultIntents
            text thr).score
        ∧ (IntentClassifier.classify IntentClassifier.defaultIntents
            text thr).score ≤ 1) := by
  refine ⟨?_, ?_, chipStrategy_score_lt_one,
    fun text thr => classify_score_bounds defaultIntents text thr⟩
  · rw [chipStrategy_classify_eval]
  · rw [chipStrategy_classify_eval]
    exact chip_cosine_ge

/-- C10: for a classifier fitted from a non-empty example document set,
every stored idf value is at least 1, every centroid weight is
nonnegative, and classify returns, for every query and threshold, a score
in the closed interval [0, 1]. -/
theorem c10_classifier_invariants (intents : IntentSet)
    (h : fitDocs intents ≠ []) :
    (∀ t : String, 0 < docFreq intents t → 1 ≤ idfVal intents t)
    ∧ (∀ p ∈ fitCentroids intents, ∀ q ∈ p.2, 0 ≤ q.2)
    ∧ (∀ (text : String) (thr : ℝ),
        0 ≤ (classify intents text thr).score
        ∧ (classify intents text thr).score ≤ 1) := by
  refine ⟨fun t _ => one_le_idfVal intents t, ?_, ?_⟩
  · intro p hp
    exact (fitCentroids_mem intents p hp).1
  · intro text thr
    exact classify_score_bounds intents text thr

/-- C10 witness: a one-intent example set. -/
theorem c10_classifier_invariants_witness :
    IntentClassifier.fitDocs [("greet", ["hello there"])] ≠ []
    ∧ (0 < IntentClassifier.docFreq [("greet", ["hello there"])] "hello" →
        1 ≤ IntentClassifier.idfVal [("greet", ["hello there"])] "hello")
    ∧ 0 ≤ (IntentClassifier.classify [("greet", ["hello there"])]
        "hello" (3 / 10)).score := by
  have h := c10_classifier_invariants [("greet", ["hello there"])] (by decide)
  exact ⟨by decide, fun hd => h.1 "hello" hd, (h.2.2 "hello" (3 / 10)).1⟩

end IntentClassifier

/-! ### src/rag_engine.py -/

namespace RagEngine

/-- A corpus document.  The metadata dict is represented by its doc_type
discriminator (the only metadata the claims depend on); `tokens` is the
Counter over the tokenized text. -/
structure Document where
  id : String
  title : String
  text : String
  docType : String
  tokens : List (String × ℕ)
deriving DecidableEq

/-- KnowledgeBase: the document list; total_docs and doc_freq are computed
from it exactly as the constructor does. -/
structure KnowledgeBase where
  documents : List Document
deriving DecidableEq

/-- total_docs. -/
def KnowledgeBase.totalDocs (kb : KnowledgeBase) : ℕ :=
  kb.documents.length

/-- doc_freq: in how many documents a token occurs (each document's
Counter keys are counted once). -/
def KnowledgeBase.docFreq (kb : KnowledgeBase) (t : String) : ℕ :=
  (kb.documents.filter fun d => alistHasKey d.tokens t).length

/-- The retriever's idf: ln((total_docs + 1) / (doc_freq + 1)) + 1,
computed against the current corpus. -/
noncomputable def kbIdf (kb : KnowledgeBase) (t : String) : ℝ :=
  Real.log (((kb.totalDocs : ℝ) + 1) / ((kb.docFreq t : ℝ) + 1)) + 1

/-- The retriever's per-document score accumulation loop: over the query
Counter's items, skipping terms absent from the document. -/
noncomputable def docScore (kb : KnowledgeBase)
    (queryCounter : List (String × ℕ)) (d : Document) : ℝ :=
  (queryCounter.map fun p =>
    if alistHasKey d.tokens p.1
    then (p.2 : ℝ) * ((alistGetD d.tokens p.1 0 : ℕ) : ℝ) * kbIdf kb p.1
    else 0).sum

/-- retrieve: empty corpus or tokenless query give [], otherwise documents
with positive score, stable-sorted descending by score, truncated to
top_k, with the scores dropped. -/
noncomputable def retrieve (query : String) (kb : KnowledgeBase)
    (topK : ℕ) : List Document :=
  if kb.totalDocs = 0 then []
  else
    let queryTokens := tokenize query
    if queryTokens.isEmpty then []
    else
      let queryCounter := counter queryTokens
      let scored := kb.documents.filterMap fun d =>
        if 0 < docScore kb queryCounter d
        then some (docScore kb queryCounter d, d) else none
      ((pySortDesc (fun p => p.1) scored).take topK).map Prod.snd

/-- The score of the claim, written as the specification states it: the
sum over the distinct query terms of
query_term_count x doc_term_count x idf(term); terms absent from the
document contribute 0 because their document count is 0. -/
noncomputable def specScore (query : String) (kb : KnowledgeBase)
    (d : Document) : ℝ :=
  ∑ t ∈ (tokenize query).toFinset,
    ((tokenize query).count t : ℝ)
      * ((alistGetD d.tokens t 0 : ℕ) : ℝ) * kbIdf kb t

theorem alistHasKey_iff {β : Type} (m : List (String × β)) (k : String) :
    alistHasKey m k = true ↔ k ∈ alistKeys m := by
  induction m with
  | nil => simp [alistHasKey, alistKeys]
  | cons p rest ih =>
    by_cases h : p.1 = k
    · simp [alistHasKey, alistKeys, h]
    · rw [show alistHasKey (p :: rest) k = alistHasKey rest k by
        simp [alistHasKey, h], ih]
      simp only [alistKeys, List.map_cons, List.mem_cons]
      constructor
      · intro hh
        exact Or.inr hh
      · intro hh
        rcases hh with hh | hh
        · exact absurd hh.symm h
        · exact hh

theorem one_le_kbIdf (kb : KnowledgeBase) (t : String) : 1 ≤ kbIdf kb t := by
  unfold kbIdf
  have hdf : kb.docFreq t ≤ kb.totalDocs := List.length_filter_le _ _
  have harg : (1 : ℝ) ≤ ((kb.totalDocs : ℝ) + 1) / ((kb.docFreq t : ℝ) + 1) := by
    rw [le_div_iff (by positivity)]
    have hc : (kb.docFreq t : ℝ) ≤ (kb.totalDocs : ℝ) := Nat.cast_le.mpr hdf
    linarith
  have := Real.log_nonneg harg
  linarith

theorem specScore_nonneg (query : String) (kb : KnowledgeBase)
    (d : Document) : 0 ≤ specScore query kb d := by
  unfold specScore
  refine Finset.sum_nonneg fun t _ => ?_
  have h1 : (0 : ℝ) < kbIdf kb t := lt_of_lt_of_le zero_lt_one (one_le_kbIdf kb t)
  positivity

theorem docScore_eq_specScore (query : String) (kb : KnowledgeBase)
    (d : Document) :
    docScore kb (counter (tokenize query)) d = specScore query kb d := by
  unfold docScore specScore
  have hterm : ∀ p ∈ counter (tokenize query),
      (if alistHasKey d.tokens p.1
        then (p.2 : ℝ) * ((alistGetD d.tokens p.1 0 : ℕ) : ℝ) * kbIdf kb p.1
        else 0)
      = ((tokenize query).count p.1 : ℝ)
          * ((alistGetD d.tokens p.1 0 : ℕ) : ℝ) * kbIdf kb p.1 := by
    intro p hp
    have hval : p.2 = (tokenize query).count p.1 := by
      rw [← counter_getD]
      exact (alist_mem_getD _ p 0 (nodup_keys_counter _) hp).symm
    by_cases hkey : alistHasKey d.tokens p.1
    · rw [if_pos hkey, hval]
    · rw [if_neg hkey]
      have hnk : p.1 ∉ alistKeys d.tokens := by
        intro hmem
        exact hkey ((alistHasKey_iff d.tokens p.1).mpr hmem)
      rw [alistGetD_of_not_mem_keys d.tokens p.1 0 hnk]
      simp
  rw [List.map_congr_left hterm]
  have hmap : (counter (tokenize query)).map
      (fun p => ((tokenize query).count p.1 : ℝ)
        * ((alistGetD d.tokens p.1 0 : ℕ) : ℝ) * kbIdf kb p.1)
      = (alistKeys (counter (tokenize query))).map
        (fun t => ((tokenize query).count t : ℝ)
          * ((alistGetD d.tokens t 0 : ℕ) : ℝ) * kbIdf kb t) := by
    simp [alistKeys, List.map_map, Function.comp_def]
  rw [hmap]
  rw [← List.sum_toFinset _ (nodup_keys_counter (tokenize query))]
  have hfs : (alistKeys (counter (tokenize query))).toFinset
      = (tokenize query).toFinset := by
    apply Finset.ext
    intro t
    simp [List.mem_toFinset, mem_keys_counter]
  rw [hfs]

/-! ### Sorting pairs versus sorting documents -/

theorem insertDescBy_map {α β : Type} (g : α → β) (key : β → ℝ) (x : α)
    (l : List α) :
    insertDescBy key (g x) (l.map g)
      = (insertDescBy (fun a => key (g a)) x l).map g := by
  induction l with
  | nil => simp [insertDescBy]
  | cons y ys ih =>
    by_cases h : key (g x) ≤ key (g y)
    · simp [insertDescBy, h, ih]
    · simp [insertDescBy, h]

theorem pySortDesc_map {α β : Type} (g : α → β) (key : β → ℝ) (l : List α) :
    pySortDesc key (l.map g) = (pySortDesc (fun a => key (g a)) l).map g := by
  have haux : ∀ acc : List α,
      (l.map g).foldl (fun acc x => insertDescBy key x acc) (acc.map g)
        = ((l.foldl (fun acc x => insertDescBy (fun a => key (g a)) x acc) acc)).map g := by
    induction l with
    | nil => intro acc; simp
    | cons x xs ih =>
      intro acc
      have h1 : ((x :: xs).map g).foldl (fun acc x => insertDescBy key x acc)
          (acc.map g)
          = (xs.map g).foldl (fun acc x => insertDescBy key x acc)
            (insertDescBy key (g x) (acc.map g)) := rfl
      rw [h1, insertDescBy_map g key x acc, ih (insertDescBy (fun a => key (g a)) x acc)]
      rfl
  simpa [pySortDesc] using haux []

theorem filterMap_score_eq (s : Document → ℝ) (l : List Document) :
    (l.filterMap fun d => if 0 < s d then some (s d, d) else none)
      = (l.filter fun d => decide (0 < s d)).map fun d => (s d, d) := by
  induction l with
  | nil => simp
  | cons d l' ih =>
    by_cases h : 0 < s d
    · simp [List.filterMap_cons, List.filter_cons, h, ih]
    · simp [List.filterMap_cons, List.filter_cons, h, ih]

theorem specScore_of_no_tokens (query : String) (kb : KnowledgeBase)
    (d : Document) (h : tokenize query = []) : specScore query kb d = 0 := by
  unfold specScore
  rw [h]
  simp

theorem retrieve_eq (query : String) (kb : KnowledgeBase) (topK : ℕ) :
    retrieve query kb topK
      = (pySortDesc (fun d => specScore query kb d)
          (kb.documents.filter fun d => decide (specScore query kb d ≠ 0))).take
          topK := by
  by_cases htok : (tokenize query).isEmpty = true
  · have htoknil : tokenize query = [] := by
      simpa [List.isEmpty_iff] using htok
    have hret : retrieve query kb topK = [] := by
      by_cases h0 : kb.totalDocs = 0 <;> simp [retrieve, h0, htok]
    have hfil : (kb.documents.filter fun d => decide (specScore query kb d ≠ 0))
        = [] := by
      apply List.filter_eq_nil_iff.mpr
      intro d _
      simp [specScore_of_no_tokens query kb d htoknil]
    rw [hret, hfil]
    simp [pySortDesc]
  · by_cases h0 : kb.totalDocs = 0
    · have hdocs : kb.documents = [] := by
        have : kb.documents.length = 0 := h0
        exact List.length_eq_zero.mp this
      have hret : retrieve query kb topK = [] := by
        simp [retrieve, h0]
      rw [hret, hdocs]
      simp [pySortDesc]
    · have htokne : (tokenize query).isEmpty = false := by
        simpa using htok
      have e1 : retrieve query kb topK
          = ((pySortDesc (fun p => p.1)
              (kb.documents.filterMap fun d =>
                if 0 < docScore kb (counter (tokenize query)) d
                then some (docScore kb (counter (tokenize query)) d, d)
                else none)).take topK).map Prod.snd := by
        simp only [retrieve, h0, htokne, Bool.false_eq_true, if_false]
      have e2 : (fun d => if 0 < docScore kb (counter (tokenize query)) d
              then some (docScore kb (counter (tokenize query)) d, d) else none)
          = fun d => if 0 < specScore query kb d
              then some (specScore query kb d, d) else none := by
        funext d
        rw [docScore_eq_specScore]
      have e3 : (kb.documents.filter fun d => decide (0 < specScore query kb d))
          = kb.documents.filter fun d => decide (specScore query kb d ≠ 0) := by
        apply List.filter_congr
        intro d _
        have hnn := specScore_nonneg query kb d
        by_cases hz : specScore query kb d = 0
        · simp [hz]
        · have hpos : 0 < specScore query kb d :=
            lt_of_le_of_ne hnn (Ne.symm hz)
          simp [hz, hpos]
      rw [e1, e2, filterMap_score_eq, e3,
        pySortDesc_map (fun d => (specScore query kb d, d)) (fun p => p.1),
        ← List.map_take]
      simp [List.map_map, Function.comp_def]

/-! ### Claim theorems about retrieve -/

/-- C5: retrieve equals the take-topK of the stable descending sort, by
the claim's TF-IDF score formula, of the documents with nonzero score; the
output is sorted descending by that score, contains only nonzero-score
documents, has at most topK entries, and equal-score documents keep their
corpus insertion order (the filtered output is a sublist of the filtered
corpus). -/
theorem c5_retrieve_spec (query : String) (kb : KnowledgeBase) (topK : ℕ) :
    retrieve query kb topK
      = (pySortDesc (fun d => specScore query kb d)
          (kb.documents.filter fun d => decide (specScore query kb d ≠ 0))).take
          topK
    ∧ SortedDescBy (fun d => specScore query kb d) (retrieve query kb topK)
    ∧ (∀ d ∈ retrieve query kb topK, specScore query kb d ≠ 0)
    ∧ (retrieve query kb topK).length ≤ topK
    ∧ (∀ c : ℝ,
        List.Sublist
          ((retrieve query kb topK).filter
            fun d => decide (specScore query kb d = c))
          (kb.documents.filter
            fun d => decide (specScore query kb d = c))) := by
  have hmain := retrieve_eq query kb topK
  refine ⟨hmain, ?_, ?_, ?_, ?_⟩
  · rw [hmain]
    exact List.Pairwise.sublist (List.take_sublist _ _) (pySortDesc_sorted _ _)
  · intro d hd
    rw [hmain] at hd
    have hd1 := (List.take_sublist topK _).subset hd
    have hd2 := (pySortDesc_perm (fun d => specScore query kb d) _).mem_iff.mp hd1
    have := List.of_mem_filter hd2
    simpa using this
  · rw [hmain]
    simpa using List.length_take_le topK _
  · intro c
    rw [hmain]
    have h1 := List.Sublist.filter
      (fun d => decide (specScore query kb d = c))
      (List.take_sublist topK (pySortDesc (fun d => specScore query kb d)
        (kb.documents.filter fun d => decide (specScore query kb d ≠ 0))))
    rw [pySortDesc_filter (fun d => specScore query kb d) c] at h1
    have h2 := List.Sublist.filter
      (fun d => decide (specScore query kb d = c))
      (List.filter_sublist (p := fun d => decide (specScore query kb d ≠ 0))
        kb.documents)
    exact h1.trans h2

/-- A single-document corpus for the witness. -/
def docEx : Document :=
  ⟨"player-1", "Scorer", "goal goal every game", "player",
    counter (tokenize "goal goal every game")⟩

/-- The witness knowledge base. -/
def kbEx : KnowledgeBase := ⟨[docEx]⟩

/-- C5 witness: the theorem applied at a concrete corpus and query. -/
theorem c5_retrieve_spec_witness :
    (retrieve "goal" kbEx 5).length ≤ 5
    ∧ List.Sublist
        ((retrieve "goal" kbEx 5).filter
          fun d => decide (specScore "goal" kbEx d = 0))
        (kbEx.documents.filter
          fun d => decide (specScore "goal" kbEx d = 0)) :=
  ⟨(c5_retrieve_spec "goal" kbEx 5).2.2.2.1,
    (c5_retrieve_spec "goal" kbEx 5).2.2.2.2 0⟩

/-! ### build_knowledge_base (DocumentCorpusBuilder) -/

/-- The roster fields of a bootstrap element that build_knowledge_base
reads. -/
structure PlayerRec where
  id : ℕ
  web_name : String
  team : ℤ
  element_type : ℕ
  status : String
  minutes : ℕ
  form : ℚ
deriving DecidableEq

/-- A bootstrap team entry (fields beyond the id and name only feed the
templated team text, which the collaborator oracle produces). -/
structure TeamRec where
  id : ℤ
  name : String
deriving DecidableEq

/-- The context bundle: the roster and the team list.  The remaining
context entries (fixtures, gameweek, name maps) are consumed only by the
external fpl_logic collaborators and the per-document templating, which
the Collaborators record abstracts. -/
structure Context where
  elements : List PlayerRec
  teams : List TeamRec

/-- The external collaborators of build_knowledge_base: the fpl_logic
calls and the string templating of the individual documents.  A sub-doc
builder returning none models a fpl_logic failure (the builder catches
the exception and skips the document); aiBundleDocs is none when
compute_ai_predictions raises. -/
structure Collaborators where
  playerDoc : PlayerRec → Document
  teamDoc : TeamRec → Document
  aiBundleDocs : Option (List Document)
  transferDoc : ℤ → Option Document
  projectionDoc : ℤ → Option Document
  chipDoc : ℤ → Option Document
  headToHeadDoc : ℤ → Option Document
  currentLeagueDoc : ℤ → Option Document

/-- build_knowledge_base.  Mirrors the source control flow, including the
Python bug the loop carries: the statement `team_id = player['team']`
inside the per-player loop rebinds the function's team_id parameter, so
after a nonempty loop the squad-document branch tests the LAST active
player's club id instead of the caller's argument. -/
noncomputable def buildKnowledgeBase (C : Collaborators) (ctx : Context)
    (playerLimit : ℕ) (teamId leagueId : Option ℤ) : KnowledgeBase :=
  let active := ctx.elements.filter fun p =>
    decide (p.status = "a") && decide (0 < p.minutes)
  let shortlisted := (pySortDesc (fun p => ((p.form : ℝ))) active).take playerLimit
  let loopResult := shortlisted.foldl
    (fun (st : List Document × Option ℤ) p =>
      (st.1 ++ [C.playerDoc p], some p.team))
    ([], teamId)
  let docs := loopResult.1
  let teamIdAfterLoop := loopResult.2
  let docs := docs ++ ctx.teams.map C.teamDoc
  let docs := match C.aiBundleDocs with
    | some aiDocs => docs ++ aiDocs
    | none => docs
  let docs :=
    if pyTruthyInt teamIdAfterLoop then
      let tid := teamIdAfterLoop.getD 0
      let docs := docs ++ (C.transferDoc tid).toList
      let docs := match C.aiBundleDocs with
        | some _ => docs ++ (C.projectionDoc tid).toList
        | none => docs
      docs ++ (C.chipDoc tid).toList
    else docs
  let docs :=
    if pyTruthyInt leagueId then
      let lid := leagueId.getD 0
      docs ++ (C.headToHeadDoc lid).toList ++ (C.currentLeagueDoc lid).toList
    else docs
  ⟨docs⟩

/-- Concrete collaborators for the C1 run: every sub-builder succeeds and
stamps the id it was called with into the document text. -/
noncomputable def c1Collab : Collaborators where
  playerDoc := fun p => ⟨"player-" ++ toString p.id, p.web_name, "", "player", []⟩
  teamDoc := fun t => ⟨"team-" ++ toString t.id, t.name, "", "team", []⟩
  aiBundleDocs := none
  transferDoc := fun i =>
    some ⟨"transfer-suggestion", "Recommended transfer", toString i, "transfer", []⟩
  projectionDoc := fun i =>
    some ⟨"team-projection", "Squad projection", toString i, "team_projection", []⟩
  chipDoc := fun i =>
    some ⟨"chip-advice", "Chip strategy advice", toString i, "chip", []⟩
  headToHeadDoc := fun _ => none
  currentLeagueDoc := fun _ => none

/-- One eligible player (status "a", positive minutes) whose club id is 7. -/
def c1Player : PlayerRec := ⟨101, "Saka", 7, 3, "a", 900, 55 / 10⟩

/-- The C1 context: a roster with that one eligible player. -/
def c1Context : Context := ⟨[c1Player], []⟩

/-- C1: evaluating build_knowledge_base at the failing input — one
eligible player of club 7, team_id = None, league_id = None — produces
transfer-recommendation and chip-strategy documents built for id 7 (the
last player's club id), although the claim requires that no
transfer/projection/chip document exist when no squad id is supplied:
the loop's rebinding of team_id makes the squad branch run. -/
theorem c1_squad_docs_leak :
    (buildKnowledgeBase c1Collab c1Context 200 none none).documents
      = [⟨"player-101", "Saka", "", "player", []⟩,
          ⟨"transfer-suggestion", "Recommended transfer", "7", "transfer", []⟩,
          ⟨"chip-advice", "Chip strategy advice", "7", "chip", []⟩]
    ∧ (⟨"chip-advice", "Chip strategy advice", "7", "chip", []⟩ : Document)
        ∈ (buildKnowledgeBase c1Collab c1Context 200 none none).documents := by
  constructor
  · rfl
  · rw [show (buildKnowledgeBase c1Collab c1Context 200 none none).documents
        = [⟨"player-101", "Saka", "", "player", []⟩,
            ⟨"transfer-suggestion", "Recommended transfer", "7", "transfer", []⟩,
            ⟨"chip-advice", "Chip strategy advice", "7", "chip", []⟩] from rfl]
    simp

end RagEngine

end FplToolkit
